import Mathlib

/-!
Verification of the AI-Smart-File-Manager core against its specification.

The Python sources are shallowly embedded:
* text is modelled as `List Char` (`Str`); Python `str.lower()` is modelled
  with `Char.toLower` (adequate for the ASCII/CJK vocabulary of the tables);
* floating-point scores are modelled as exact rationals, and `int(x)` on a
  nonnegative value as the floor (truncation and floor agree for `x ≥ 0`);
* the filesystem visible to one operation is modelled as the list of paths
  that exist, a path being a list of name segments (`List Str`); a POSIX
  `rename` that may overwrite its destination is `fsRename`;
* the few Python constructs that raise (`PermissionError` in hashing) are
  modelled by `Option`-valued inputs.
-/

/-- Text and file names, as lists of characters. -/
abbrev Str := List Char

/-- Convert a string literal into the character-list model. -/
def chars (s : String) : Str := s.data

/-- Decimal digit character, `chr(48 + d)` as produced by Python `str(n)`. -/
def digitChar (d : ℕ) : Char := Char.ofNat (48 + d)

/-- Decimal rendering, fuel-bounded (the fuel keeps the recursion
structural; `natRepr` supplies enough fuel for it never to run out). -/
def natReprAux (fuel : ℕ) (n : ℕ) : Str :=
  match fuel with
  | 0 => []
  | fuel + 1 =>
    if n < 10 then [digitChar n]
    else natReprAux fuel (n / 10) ++ [digitChar (n % 10)]

/-- Decimal rendering of a natural number, as Python `str(counter)` inside
`f-strings` such as `f"{stem}_{counter}{suffix}"`. -/
def natRepr (n : ℕ) : Str := natReprAux (n + 1) n

/-- Numeric value of a digit character. -/
def digitVal (c : Char) : ℕ := c.toNat - 48

/-- Read a decimal digit string back into a number (left fold). -/
def readNat (s : Str) : ℕ := s.foldl (fun a c => 10 * a + digitVal c) 0

theorem digitVal_digitChar : ∀ d, d < 10 → digitVal (digitChar d) = d := by decide

theorem readNat_step (s : Str) (c : Char) :
    readNat (s ++ [c]) = 10 * readNat s + digitVal c := by
  unfold readNat
  rw [List.foldl_append]
  rfl

theorem readNat_natReprAux :
    ∀ fuel n, n < fuel → readNat (natReprAux fuel n) = n := by
  intro fuel
  induction fuel with
  | zero => intro n h; omega
  | succ fuel ih =>
    intro n h
    show readNat (if n < 10 then [digitChar n]
      else natReprAux fuel (n / 10) ++ [digitChar (n % 10)]) = n
    by_cases h10 : n < 10
    · rw [if_pos h10]
      show 10 * 0 + digitVal (digitChar n) = n
      rw [digitVal_digitChar n h10]
      omega
    · rw [if_neg h10, readNat_step,
        ih (n / 10) (by
          have hd : n / 10 < n := Nat.div_lt_self (by omega) (by omega)
          omega),
        digitVal_digitChar (n % 10) (Nat.mod_lt n (by omega))]
      omega

theorem readNat_natRepr (n : ℕ) : readNat (natRepr n) = n :=
  readNat_natReprAux (n + 1) n (by omega)

theorem natRepr_injective : Function.Injective natRepr := by
  intro a b h
  have := readNat_natRepr a
  rw [h, readNat_natRepr] at this
  omega

theorem natRepr_ne_nil (n : ℕ) : natRepr n ≠ [] := by
  show (if n < 10 then [digitChar n]
    else natReprAux n (n / 10) ++ [digitChar (n % 10)]) ≠ []
  by_cases h : n < 10 <;> simp [h]

/-- `w` occurs as a contiguous substring of `s` (Python `w in s` /
`re.search` on a literal pattern). -/
def containsSub (w : Str) : Str → Bool
  | [] => w.isEmpty
  | c :: rest => w.isPrefixOf (c :: rest) || containsSub w rest

/-- Search for `w` after a gap of non-newline characters (the `.*w` tail of a
regex without `DOTALL`). -/
def gapFind (w : Str) : Str → Bool
  | [] => w.isEmpty
  | c :: rest => w.isPrefixOf (c :: rest) || (c != '\n' && gapFind w rest)

/-- `re.search` success of `w1.*w2`: `w1` somewhere, then `w2` after a
non-newline gap. -/
def twoMatch (w1 w2 : Str) : Str → Bool
  | [] => w1.isEmpty && w2.isEmpty
  | c :: rest =>
    (w1.isPrefixOf (c :: rest) && gapFind w2 ((c :: rest).drop w1.length))
      || twoMatch w1 w2 rest

/-- Index of the last dot in a name (Python `str.rfind('.')`). -/
def lastDotIdx (nm : Str) : Option ℕ :=
  (List.range nm.length).foldl
    (fun acc i => if nm.getD i ' ' == '.' then some i else acc) none

/-- `pathlib.PurePath` stem/suffix split: the suffix starts at the last dot
provided that dot is neither the first nor the last character; otherwise the
suffix is empty.  Returns `(stem, suffix)`. -/
def path_split (nm : Str) : Str × Str :=
  match lastDotIdx nm with
  | some i => if 0 < i ∧ i < nm.length - 1 then (nm.take i, nm.drop i) else (nm, [])
  | none => (nm, [])

theorem path_split_append (nm : Str) : (path_split nm).1 ++ (path_split nm).2 = nm := by
  unfold path_split
  cases lastDotIdx nm with
  | none => simp
  | some i =>
    by_cases h : 0 < i ∧ i < nm.length - 1
    · simp [h, List.take_append_drop]
    · simp [h]

/-- Candidate destination names of the numeric-suffix collision loop:
the original name first, then `f"{stem}_{counter}{suffix}"` for
`counter = 1, 2, …` (stem and suffix of the original destination). -/
def candName (nm : Str) : ℕ → Str
  | 0 => nm
  | k + 1 => (path_split nm).1 ++ ('_' :: (natRepr (k + 1) ++ (path_split nm).2))

theorem candName_length_succ (nm : Str) (k : ℕ) :
    nm.length < (candName nm (k + 1)).length := by
  have h := congrArg List.length (path_split_append nm)
  have h2 : 0 < (natRepr (k + 1)).length :=
    List.length_pos.mpr (natRepr_ne_nil (k + 1))
  simp only [List.length_append] at h
  simp only [candName, List.length_append, List.length_cons]
  omega

theorem candName_injective (nm : Str) : Function.Injective (candName nm) := by
  intro a b h
  match a, b with
  | 0, 0 => rfl
  | 0, b + 1 =>
    have hlt := candName_length_succ nm b
    rw [show candName nm 0 = nm from rfl] at h
    rw [← h] at hlt
    exact absurd hlt (lt_irrefl _)
  | a + 1, 0 =>
    have hlt := candName_length_succ nm a
    rw [show candName nm 0 = nm from rfl] at h
    rw [h] at hlt
    exact absurd hlt (lt_irrefl _)
  | a + 1, b + 1 =>
    simp only [candName] at h
    have h2 := List.append_cancel_left h
    have h3 : natRepr (a + 1) ++ (path_split nm).2
        = natRepr (b + 1) ++ (path_split nm).2 := by
      injection h2
    have h4 := List.append_cancel_right h3
    have := natRepr_injective h4
    omega

/-- Smallest index below `fuel` satisfying `stop`, else `default`.  This is
the search skeleton of the Python `while` collision loops: the loop tries
counters in increasing order and the embedding bounds the scan by a fuel
large enough that, for the predicates used here, a hit always exists. -/
def scanFirst (stop : ℕ → Bool) (fuel default : ℕ) : ℕ :=
  match (List.range fuel).find? stop with
  | some k => k
  | none => default

theorem scanFirst_spec (stop : ℕ → Bool) (fuel default : ℕ)
    (h : ∃ k, k < fuel ∧ stop k = true) :
    stop (scanFirst stop fuel default) = true := by
  unfold scanFirst
  cases hf : (List.range fuel).find? stop with
  | some k => exact List.find?_some hf
  | none =>
    obtain ⟨k, hk, hs⟩ := h
    exact absurd hs (List.find?_eq_none.mp hf k (List.mem_range.mpr hk))

theorem scanFirst_zero (stop : ℕ → Bool) (fuel default : ℕ)
    (hfuel : 0 < fuel) (h : stop 0 = true) :
    scanFirst stop fuel default = 0 := by
  unfold scanFirst
  obtain ⟨m, rfl⟩ := Nat.exists_eq_add_of_lt hfuel
  rw [Nat.zero_add, List.range_succ_eq_map]
  simp [List.find?_cons, h]

/-- Among `ex.length + 1` pairwise-distinct candidates at least one is not a
member of `ex`. -/
theorem exists_fresh {α : Type} [DecidableEq α] (c : ℕ → α)
    (hc : Function.Injective c) (ex : List α) :
    ∃ k, k ≤ ex.length ∧ c k ∉ ex := by
  by_contra h
  push_neg at h
  have hsub : (List.range (ex.length + 1)).map c ⊆ ex := by
    intro x hx
    obtain ⟨k, hk, rfl⟩ := List.mem_map.mp hx
    exact h k (Nat.lt_succ_iff.mp (List.mem_range.mp hk))
  have hnd : ((List.range (ex.length + 1)).map c).Nodup :=
    (List.nodup_range _).map hc
  have := (List.subperm_of_subset hnd hsub).length_le
  simp at this

/-- The collision loop of `_organize_by_*` / `create_file_shortcuts`:
`while dest.exists(): dest = next candidate`.  `occupied` is the list of
paths that exist; `mk k` builds the path of the `k`-th candidate name. -/
def resolve_collision {α : Type} [DecidableEq α] (occupied : List α)
    (mk : ℕ → α) : α :=
  mk (scanFirst (fun k => !(occupied.contains (mk k)))
      (occupied.length + 1) (occupied.length + 1))

theorem resolve_collision_not_mem {α : Type} [DecidableEq α]
    (occupied : List α) (mk : ℕ → α) (hmk : Function.Injective mk) :
    resolve_collision occupied mk ∉ occupied := by
  have hex : ∃ k, k < occupied.length + 1
      ∧ (!(occupied.contains (mk k))) = true := by
    obtain ⟨k, hk, hout⟩ := exists_fresh mk hmk occupied
    exact ⟨k, by omega, by simpa using hout⟩
  have := scanFirst_spec _ _ (occupied.length + 1) hex
  unfold resolve_collision
  simpa using this

/-- The collision loop of `batch_rename_files`:
`while new_path.exists() and new_path != file_path`. -/
def resolve_rename {α : Type} [DecidableEq α] (occupied : List α)
    (self : α) (mk : ℕ → α) : α :=
  mk (scanFirst (fun k => (mk k == self) || !(occupied.contains (mk k)))
      (occupied.length + 1) (occupied.length + 1))

theorem resolve_rename_spec {α : Type} [DecidableEq α] (occupied : List α)
    (self : α) (mk : ℕ → α) (hmk : Function.Injective mk) :
    resolve_rename occupied self mk = self
      ∨ resolve_rename occupied self mk ∉ occupied := by
  have hex : ∃ k, k < occupied.length + 1
      ∧ ((mk k == self) || !(occupied.contains (mk k))) = true := by
    obtain ⟨k, hk, hout⟩ := exists_fresh mk hmk occupied
    exact ⟨k, by omega, by simp [hout]⟩
  have := scanFirst_spec _ _ (occupied.length + 1) hex
  unfold resolve_rename
  rcases Bool.or_eq_true .. |>.mp this with h | h
  · exact Or.inl (by simpa using h)
  · exact Or.inr (by simpa using h)

theorem resolve_rename_first {α : Type} [DecidableEq α] (occupied : List α)
    (self : α) (mk : ℕ → α)
    (h : mk 0 = self ∨ mk 0 ∉ occupied) :
    resolve_rename occupied self mk = mk 0 := by
  unfold resolve_rename
  rw [scanFirst_zero _ _ _ (by omega)]
  rcases h with h | h <;> simp [h]

/-! ## Intent classifier (`nlp_processor.NLPProcessor._identify_intent`)

Every trigger regex in `_load_intent_patterns` is an alternation whose
branches are either a literal or two literals joined by `.*`; a branch is
embedded accordingly. -/

/-- One branch of a trigger regex. -/
inductive RxBranch : Type where
  | one (w : Str)
  | two (w1 w2 : Str)
deriving DecidableEq

/-- `re.search` success of a single branch in `s`. -/
def branchMatch (s : Str) : RxBranch → Bool
  | .one w => containsSub w s
  | .two w1 w2 => twoMatch w1 w2 s

/-- A trigger pattern: alternation of branches. -/
abbrev RxPattern := List RxBranch

/-- `re.search(pattern, s)` succeeds iff some branch matches. -/
def patMatch (s : Str) (p : RxPattern) : Bool := p.any (branchMatch s)

/-- Alternation of plain literals. -/
def alts (ws : List String) : RxPattern := ws.map fun w => RxBranch.one (chars w)

def searchPatterns : List RxPattern :=
  [alts ["找", "搜索", "查找", "寻找", "locate", "find", "search"],
   alts ["显示", "列出", "show", "list", "display"],
   alts ["在哪", "where"],
   alts ["有没有", "是否存在", "exist"]]

def movePatterns : List RxPattern :=
  [alts ["移动", "剪切", "move", "cut"],
   alts ["搬到", "移到"] ++ [RxBranch.two (chars "move") (chars "to")],
   alts ["转移", "transfer"]]

def copyPatterns : List RxPattern :=
  [alts ["复制", "拷贝", "copy", "duplicate"],
   alts ["备份", "backup"],
   alts ["克隆", "clone"]]

def deletePatterns : List RxPattern :=
  [alts ["删除", "移除", "remove", "delete", "del"],
   alts ["清理", "清除", "clean", "clear"],
   alts ["丢弃", "discard"]]

def createPatterns : List RxPattern :=
  [alts ["创建", "新建", "建立", "create", "make", "new"],
   alts ["生成", "generate"],
   alts ["添加", "add"]]

def organizePatterns : List RxPattern :=
  [alts ["整理", "组织", "organize", "sort", "arrange"],
   alts ["分类", "classify", "categorize"],
   alts ["归档", "archive"]]

def compressPatterns : List RxPattern :=
  [alts ["压缩", "打包", "zip", "compress", "pack"],
   alts ["归档"] ++ [RxBranch.two (chars "archive") (chars "zip")]]

def extractPatterns : List RxPattern :=
  [alts ["解压", "解压缩", "unzip", "extract", "unpack"],
   alts ["展开", "expand"]]

def analyzePatterns : List RxPattern :=
  [alts ["分析", "analyze", "analysis"],
   alts ["统计", "statistics", "stats"],
   alts ["报告", "report"]]

def renamePatterns : List RxPattern :=
  [alts ["重命名", "改名", "rename"],
   alts ["更名"] ++ [RxBranch.two (chars "change") (chars "name")]]

/-- The intent table of `_load_intent_patterns`, in dict insertion order. -/
def intent_patterns : List (String × List RxPattern) :=
  [("search", searchPatterns), ("move", movePatterns), ("copy", copyPatterns),
   ("delete", deletePatterns), ("create", createPatterns),
   ("organize", organizePatterns), ("compress", compressPatterns),
   ("extract", extractPatterns), ("analyze", analyzePatterns),
   ("rename", renamePatterns)]

/-- `matches`: how many of the intent's patterns fire on the text. -/
def matchCount (s : Str) (pats : List RxPattern) : ℕ :=
  pats.countP (fun p => patMatch s p)

/-- The `score` accumulator loop: `score += 1.0 / len(patterns)` per match. -/
def scoreLoop (s : Str) (pats : List RxPattern) : ℚ :=
  pats.foldl
    (fun acc p => if patMatch s p then acc + 1 / (pats.length : ℚ) else acc) 0

/-- The value stored in `intent_scores`:
`score * (matches / len(patterns))`. -/
def intentScore (s : Str) (pats : List RxPattern) : ℚ :=
  scoreLoop s pats * ((matchCount s pats : ℚ) / (pats.length : ℚ))

/-- The `intent_scores` dict as an association list in insertion order
(only intents with `matches > 0` are inserted). -/
def scoredIntents (t : Str) : List (String × ℚ) :=
  intent_patterns.filterMap fun ip =>
    if 0 < matchCount t ip.2 then some (ip.1, intentScore t ip.2) else none

/-- `max(intent_scores.items(), key=value)` (first maximum wins) followed by
the `min(…, 1.0)` clamp; `("unknown", 0.0)` on an empty dict. -/
def pickBest (scored : List (String × ℚ)) : String × ℚ :=
  match scored with
  | [] => ("unknown", 0)
  | x :: rest =>
    let b := rest.foldl (fun a y => if a.2 < y.2 then y else a) x
    (b.1, min b.2 1)

/-- `NLPProcessor._identify_intent`. -/
def identify_intent (text : Str) : String × ℚ :=
  pickBest (scoredIntents (text.map Char.toLower))

theorem foldl_count_add (P : RxPattern → Bool) (q : ℚ) (l : List RxPattern) (a : ℚ) :
    l.foldl (fun acc p => if P p then acc + q else acc) a
      = a + (l.countP P : ℚ) * q := by
  induction l generalizing a with
  | nil => simp [List.countP_nil]
  | cons x t ih =>
    rw [List.foldl_cons, ih, List.countP_cons]
    by_cases h : P x = true <;> simp [h] <;> push_cast <;> ring

theorem intentScore_eq (s : Str) (pats : List RxPattern)
    (h : 0 < matchCount s pats) :
    intentScore s pats
      = (matchCount s pats : ℚ) ^ 2 / (pats.length : ℚ) ^ 2 := by
  have hn : 0 < pats.length := by
    rcases pats with _ | ⟨p, t⟩
    · simp [matchCount, List.countP_nil] at h
    · simp
  have hq : (pats.length : ℚ) ≠ 0 := by positivity
  unfold intentScore scoreLoop
  rw [foldl_count_add (fun p => patMatch s p) (1 / (pats.length : ℚ)) pats 0]
  show (0 + (matchCount s pats : ℚ) * (1 / _)) * _ = _
  field_simp
  ring

theorem foldl_best_spec {β : Type} (x : β × ℚ) (rest : List (β × ℚ)) :
    rest.foldl (fun a p => if a.2 < p.2 then p else a) x ∈ x :: rest
      ∧ ∀ w ∈ x :: rest,
          w.2 ≤ (rest.foldl (fun a p => if a.2 < p.2 then p else a) x).2 := by
  induction rest generalizing x with
  | nil => simp
  | cons z t ih =>
    have step : (z :: t).foldl (fun a p => if a.2 < p.2 then p else a) x
        = t.foldl (fun a p => if a.2 < p.2 then p else a)
            (if x.2 < z.2 then z else x) := by
      rw [List.foldl_cons]
    obtain ⟨hmem, hmax⟩ := ih (if x.2 < z.2 then z else x)
    have hxle : x.2 ≤ (if x.2 < z.2 then z else x).2 := by
      by_cases hxz : x.2 < z.2
      · simpa [hxz] using le_of_lt hxz
      · simp [hxz]
    have hzle : z.2 ≤ (if x.2 < z.2 then z else x).2 := by
      by_cases hxz : x.2 < z.2
      · simp [hxz]
      · simpa [hxz] using le_of_not_lt hxz
    constructor
    · rw [step]
      rcases List.mem_cons.mp hmem with h | h
      · rw [h]
        by_cases hxz : x.2 < z.2 <;> simp [hxz]
      · simp [h]
    · intro w hw
      rw [step]
      rcases List.mem_cons.mp hw with hw1 | hw2
      · subst hw1
        exact le_trans hxle (hmax _ (List.mem_cons_self _ _))
      · rcases List.mem_cons.mp hw2 with hw3 | hw4
        · subst hw3
          exact le_trans hzle (hmax _ (List.mem_cons_self _ _))
        · exact hmax w (List.mem_cons_of_mem _ hw4)

/-- C1 (counterexample): on the text `"find"` exactly one of the four
`search` patterns matches, yet the score stored for `search` is not
`matches² / total_patterns = 1/4`: the code computes
`score * (matches / len(patterns)) = (1/4) * (1/4) = 1/16`. -/
theorem c1_score_counterexample :
    matchCount ((chars "find").map Char.toLower) searchPatterns = 1
    ∧ searchPatterns.length = 4
    ∧ ("search", searchPatterns) ∈ intent_patterns
    ∧ (identify_intent (chars "find")).1 = "search"
    ∧ intentScore ((chars "find").map Char.toLower) searchPatterns
        ≠ (matchCount ((chars "find").map Char.toLower) searchPatterns : ℚ) ^ 2
          / (searchPatterns.length : ℚ) := by
  refine ⟨by decide, by decide, by decide, rfl, ?_⟩
  have h1 : matchCount ((chars "find").map Char.toLower) searchPatterns = 1 := by
    decide
  have h4 : searchPatterns.length = 4 := by decide
  rw [intentScore_eq _ _ (by rw [h1]; omega), h1, h4]
  norm_num

/-- C1 (amended): for every text and every intent with at least one matching
trigger pattern, the classifier stores the score
`matches² / total_patterns²` (not `matches² / total_patterns`), and the
returned intent is one achieving the maximum stored score. -/
theorem c1_intent_score (text : Str)
    (h : ∃ ip ∈ intent_patterns, 0 < matchCount (text.map Char.toLower) ip.2) :
    (∀ ip ∈ intent_patterns, 0 < matchCount (text.map Char.toLower) ip.2 →
        intentScore (text.map Char.toLower) ip.2
          = (matchCount (text.map Char.toLower) ip.2 : ℚ) ^ 2
            / ((ip.2).length : ℚ) ^ 2)
    ∧ ∃ ip ∈ intent_patterns, (identify_intent text).1 = ip.1
        ∧ 0 < matchCount (text.map Char.toLower) ip.2
        ∧ ∀ jp ∈ intent_patterns, 0 < matchCount (text.map Char.toLower) jp.2 →
            intentScore (text.map Char.toLower) jp.2
              ≤ intentScore (text.map Char.toLower) ip.2 := by
  constructor
  · intro ip _ hm
    exact intentScore_eq _ ip.2 hm
  · obtain ⟨ip0, hip0, hm0⟩ := h
    have hmem : (ip0.1, intentScore (text.map Char.toLower) ip0.2)
        ∈ scoredIntents (text.map Char.toLower) :=
      List.mem_filterMap.mpr ⟨ip0, hip0, by rw [if_pos hm0]⟩
    cases hs : scoredIntents (text.map Char.toLower) with
    | nil => rw [hs] at hmem; cases hmem
    | cons x rest =>
      have hbest := foldl_best_spec x rest
      have hbmem : rest.foldl (fun a p => if a.2 < p.2 then p else a) x
          ∈ scoredIntents (text.map Char.toLower) := hs ▸ hbest.1
      obtain ⟨ip, hip, hif⟩ := List.mem_filterMap.mp hbmem
      by_cases hm : 0 < matchCount (text.map Char.toLower) ip.2
      · rw [if_pos hm] at hif
        have hbval : rest.foldl (fun a p => if a.2 < p.2 then p else a) x
            = (ip.1, intentScore (text.map Char.toLower) ip.2) :=
          (Option.some.inj hif).symm
        have hid : identify_intent text
            = ((rest.foldl (fun a p => if a.2 < p.2 then p else a) x).1,
               min (rest.foldl (fun a p => if a.2 < p.2 then p else a) x).2 1) := by
          unfold identify_intent pickBest
          rw [hs]
        refine ⟨ip, hip, ?_, hm, ?_⟩
        · rw [hid, hbval]
        · intro jp hjp hmj
          have hjmem : (jp.1, intentScore (text.map Char.toLower) jp.2)
              ∈ scoredIntents (text.map Char.toLower) :=
            List.mem_filterMap.mpr ⟨jp, hjp, by rw [if_pos hmj]⟩
          have hle := hbest.2 _ (by rw [hs] at hjmem; exact hjmem)
          rw [hbval] at hle
          exact hle
      · rw [if_neg hm] at hif
        cases hif

/-- C1 witness: on the text `"find"` the hypotheses hold and the returned
intent is a maximal-score one. -/
theorem c1_intent_score_witness :
    ∃ ip ∈ intent_patterns, (identify_intent (chars "find")).1 = ip.1
        ∧ 0 < matchCount ((chars "find").map Char.toLower) ip.2
        ∧ ∀ jp ∈ intent_patterns,
            0 < matchCount ((chars "find").map Char.toLower) jp.2 →
            intentScore ((chars "find").map Char.toLower) jp.2
              ≤ intentScore ((chars "find").map Char.toLower) ip.2 :=
  (c1_intent_score (chars "find") (by decide)).2

/-- C9 (confirmed): if no intent pattern matches the lowered text the
classifier returns `("unknown", 0.0)`, and on every input the returned
confidence is at most `1.0` (the `min(score, 1.0)` clamp). -/
theorem c9_unknown_and_clamp (text : Str) :
    ((∀ ip ∈ intent_patterns, matchCount (text.map Char.toLower) ip.2 = 0) →
        identify_intent text = ("unknown", 0))
    ∧ (identify_intent text).2 ≤ 1 := by
  constructor
  · intro hall
    have hnil : scoredIntents (text.map Char.toLower) = [] := by
      unfold scoredIntents
      rw [List.filterMap_eq_nil]
      intro ip hip
      rw [if_neg (by rw [hall ip hip]; omega)]
    unfold identify_intent
    rw [hnil]
    rfl
  · unfold identify_intent pickBest
    cases hs : scoredIntents (text.map Char.toLower) with
    | nil => norm_num
    | cons x rest => exact min_le_right _ _

/-- C9 witness: the empty string matches nothing, returns
`("unknown", 0.0)`, and its confidence is at most `1`. -/
theorem c9_unknown_and_clamp_witness :
    identify_intent (chars "") = ("unknown", 0)
    ∧ (identify_intent (chars "")).2 ≤ 1 :=
  ⟨(c9_unknown_and_clamp (chars "")).1 (by decide),
   (c9_unknown_and_clamp (chars "")).2⟩

/-! ## Size parsing (`utils.parse_size_string`,
`NLPProcessor._extract_size_constraint`)

The regex `(\d+(?:\.\d+)?)\s*(b|byte|bytes|字节|kb|mb|gb|tb)` is embedded as
a left-to-right scan; at each position the greedy digit run, optional
fraction, whitespace run and first matching unit alternative are read.  For
this pattern greedy matching without backtracking coincides with the regex
engine (shorter digit/fraction/space runs always leave the unit facing a
digit, dot or space, on which no alternative can start).  `\d`/`\s` are
modelled on their ASCII subset and `float`/`int` arithmetic exactly, with
truncation of a nonnegative value as division. -/

def isDigitCh (c : Char) : Bool := '0' ≤ c && c ≤ '9'

/-- `Config.SIZE_UNITS`, ordered as the regex alternation tries them. -/
def size_units : List (Str × ℕ) :=
  [(chars "b", 1), (chars "byte", 1), (chars "bytes", 1), (chars "字节", 1),
   (chars "kb", 1024), (chars "mb", 1024 ^ 2), (chars "gb", 1024 ^ 3),
   (chars "tb", 1024 ^ 4)]

/-- First unit alternative that matches at the head of `s`. -/
def findUnit (s : Str) : Option ℕ :=
  (size_units.find? (fun u => u.1.isPrefixOf s)).map (·.2)

/-- Attempt the size regex anchored at the head of `s`, returning
`int(float(number) * multiplier)`. -/
def matchSizeAt (s : Str) : Option ℕ :=
  let ds := s.takeWhile isDigitCh
  let rest1 := s.dropWhile isDigitCh
  if ds.isEmpty then none
  else
    let fr :=
      match rest1 with
      | '.' :: r =>
        let f := r.takeWhile isDigitCh
        if f.isEmpty then ([], rest1) else (f, r.dropWhile isDigitCh)
      | _ => ([], rest1)
    let rest3 := fr.2.dropWhile (fun c => c.isWhitespace)
    match findUnit rest3 with
    | some mult => some (readNat (ds ++ fr.1) * mult / 10 ^ fr.1.length)
    | none => none

/-- Leftmost-match scan of the size regex. -/
def scanSize : Str → Option ℕ
  | [] => none
  | c :: rest =>
    match matchSizeAt (c :: rest) with
    | some v => some v
    | none => scanSize rest

/-- `utils.parse_size_string` (the pattern is searched in `text.lower()`). -/
def parse_size_string (text : Str) : Option ℕ :=
  scanSize (text.map Char.toLower)

/-- Comparison vocabularies of `_extract_size_constraint`, checked by
substring membership in the original (unlowered) text. -/
def moreThanWords : List Str :=
  [chars "大于", chars "超过", chars "大过", chars "more than",
   chars "larger than", chars ">"]

def lessThanWords : List Str :=
  [chars "小于", chars "少于", chars "小过", chars "less than",
   chars "smaller than", chars "<"]

def hasWord (text : Str) (ws : List Str) : Bool :=
  ws.any fun w => containsSub w text

/-- The `size_constraint` dict: at most `min`/`max` keys. -/
structure SizeConstraint : Type where
  min : Option ℕ
  max : Option ℕ
deriving DecidableEq

/-- `NLPProcessor._extract_size_constraint`.  Note `if size_bytes:` is falsy
for a parsed value of `0`, so the dict stays empty and `None` is returned. -/
def extract_size_constraint (text : Str) : Option SizeConstraint :=
  match parse_size_string text with
  | none => none
  | some v =>
    if v = 0 then none
    else if hasWord text moreThanWords then some ⟨some v, none⟩
    else if hasWord text lessThanWords then some ⟨none, some v⟩
    else some ⟨some (9 * v / 10), some (11 * v / 10)⟩

/-- C6 (counterexample): `"0b"` contains a parsable size (`0` bytes) and
neither comparison word, yet the extractor returns no constraint at all
instead of `min = max = 0`, because `if size_bytes:` is falsy at `0`. -/
theorem c6_size_counterexample :
    parse_size_string (chars "0b") = some 0
    ∧ hasWord (chars "0b") moreThanWords = false
    ∧ hasWord (chars "0b") lessThanWords = false
    ∧ extract_size_constraint (chars "0b") = none := by
  refine ⟨by decide, by decide, by decide, by decide⟩

/-- C6 (amended): for every text whose parsed size is positive, a more-than
word sets only `min` to the parsed byte count; otherwise a less-than word
sets only `max`; with neither word both `min = ⌊0.9·v⌋` and
`max = ⌊1.1·v⌋` are set. -/
theorem c6_size_constraint (text : Str) (v : ℕ)
    (hp : parse_size_string text = some v) (hv : 0 < v) :
    (hasWord text moreThanWords = true →
        extract_size_constraint text = some ⟨some v, none⟩)
    ∧ (hasWord text moreThanWords = false →
        hasWord text lessThanWords = true →
        extract_size_constraint text = some ⟨none, some v⟩)
    ∧ (hasWord text moreThanWords = false →
        hasWord text lessThanWords = false →
        extract_size_constraint text
          = some ⟨some (9 * v / 10), some (11 * v / 10)⟩) := by
  have hbody : extract_size_constraint text
      = (if v = 0 then none
         else if hasWord text moreThanWords then some ⟨some v, none⟩
         else if hasWord text lessThanWords then some ⟨none, some v⟩
         else some ⟨some (9 * v / 10), some (11 * v / 10)⟩) := by
    unfold extract_size_constraint
    rw [hp]
  rw [hbody, if_neg (by omega)]
  refine ⟨fun h1 => by rw [if_pos h1], fun h1 h2 => ?_, fun h1 h2 => ?_⟩
  · rw [if_neg (by simp [h1]), if_pos h2]
  · rw [if_neg (by simp [h1]), if_neg (by simp [h2])]

/-- C6 witness: `"larger than 10MB"` yields `min = 10·1024·1024` only, and
`"about 10MB"` yields the ±10 percent band. -/
theorem c6_size_constraint_witness :
    extract_size_constraint (chars "larger than 10MB")
      = some ⟨some (10 * 1024 * 1024), none⟩
    ∧ extract_size_constraint (chars "about 10MB")
      = some ⟨some (9 * (10 * 1024 * 1024) / 10),
              some (11 * (10 * 1024 * 1024) / 10)⟩ :=
  ⟨(c6_size_constraint (chars "larger than 10MB") (10 * 1024 * 1024)
      (by decide) (by decide)).1 (by decide),
   (c6_size_constraint (chars "about 10MB") (10 * 1024 * 1024)
      (by decide) (by decide)).2.2 (by decide) (by decide)⟩

/-! ## Operation history accessor
(`AdvancedFileOperations.get_operation_history`) -/

/-- `self.operation_history[-limit:] if limit > 0 else self.operation_history`. -/
def get_operation_history {α : Type} (history : List α) (limit : ℤ) : List α :=
  if 0 < limit then history.drop (history.length - limit.toNat) else history

/-- C10 (confirmed): a positive limit returns exactly the most recent
`limit` entries (fewer when the history is shorter) in chronological order;
a zero or negative limit returns the entire history. -/
theorem c10_get_operation_history {α : Type} (history : List α) (limit : ℤ) :
    (0 < limit →
      get_operation_history history limit
          = (history.reverse.take limit.toNat).reverse
        ∧ (get_operation_history history limit).length
            = min limit.toNat history.length)
    ∧ (limit ≤ 0 → get_operation_history history limit = history) := by
  constructor
  · intro hl
    unfold get_operation_history
    rw [if_pos hl]
    constructor
    · rw [List.take_reverse, List.reverse_reverse]
    · rw [List.length_drop]
      omega
  · intro hl
    unfold get_operation_history
    rw [if_neg (by omega)]

/-- C10 witness: with a three-entry history, limit `2` returns the last two
entries in order, and limit `-1` returns the whole history. -/
theorem c10_get_operation_history_witness :
    (get_operation_history [10, 20, 30] 2
        = (([10, 20, 30] : List ℕ).reverse.take (2 : ℤ).toNat).reverse
      ∧ (get_operation_history [10, 20, 30] (2 : ℤ)).length
          = min (2 : ℤ).toNat ([10, 20, 30] : List ℕ).length)
    ∧ get_operation_history [10, 20, 30] (-1) = ([10, 20, 30] : List ℕ) :=
  ⟨(c10_get_operation_history [10, 20, 30] 2).1 (by decide),
   (c10_get_operation_history [10, 20, 30] (-1)).2 (by decide)⟩

/-! ## Grouping (`collections.defaultdict` insertion-order grouping) -/

/-- Keys in first-occurrence order (insertion order of a Python dict). -/
def dedupFirstAux {β : Type} [DecidableEq β] (seen : List β) : List β → List β
  | [] => []
  | b :: bs =>
    if b ∈ seen then dedupFirstAux seen bs
    else b :: dedupFirstAux (b :: seen) bs

theorem mem_dedupFirstAux {β : Type} [DecidableEq β] (l : List β) :
    ∀ (seen : List β) (b : β),
      b ∈ dedupFirstAux seen l ↔ b ∈ l ∧ b ∉ seen := by
  induction l with
  | nil => intro seen b; simp [dedupFirstAux]
  | cons x xs ih =>
    intro seen b
    unfold dedupFirstAux
    by_cases hx : x ∈ seen
    · rw [if_pos hx, ih]
      constructor
      · rintro ⟨h1, h2⟩
        exact ⟨List.mem_cons_of_mem _ h1, h2⟩
      · rintro ⟨h1, h2⟩
        rcases List.mem_cons.mp h1 with rfl | h1
        · exact absurd hx h2
        · exact ⟨h1, h2⟩
    · rw [if_neg hx]
      simp only [List.mem_cons, ih (x :: seen) b, List.mem_cons]
      constructor
      · rintro (rfl | ⟨h1, h2⟩)
        · exact ⟨Or.inl rfl, hx⟩
        · exact ⟨Or.inr h1, fun hb => h2 (Or.inr hb)⟩
      · rintro ⟨rfl | h1, h2⟩
        · exact Or.inl rfl
        · by_cases hbx : b = x
          · exact Or.inl hbx
          · refine Or.inr ⟨h1, fun hb => ?_⟩
            rcases hb with rfl | hb
            · exact hbx rfl
            · exact h2 hb

theorem nodup_dedupFirstAux {β : Type} [DecidableEq β] (l : List β) :
    ∀ seen : List β, (dedupFirstAux seen l).Nodup := by
  induction l with
  | nil => intro seen; simp [dedupFirstAux]
  | cons x xs ih =>
    intro seen
    unfold dedupFirstAux
    by_cases hx : x ∈ seen
    · rw [if_pos hx]; exact ih seen
    · rw [if_neg hx]
      refine List.nodup_cons.mpr ⟨?_, ih (x :: seen)⟩
      intro hmem
      exact ((mem_dedupFirstAux xs (x :: seen) x).mp hmem).2 (List.mem_cons_self _ _)

/-- `defaultdict` grouping: key → all elements with that key, keys in
insertion order. -/
def groupByKey {α β : Type} [DecidableEq β] (key : α → β) (xs : List α) :
    List (β × List α) :=
  (dedupFirstAux [] (xs.map key)).map fun k =>
    (k, xs.filter fun y => decide (key y = k))

theorem groupByKey_mem {α β : Type} [DecidableEq β] {key : α → β}
    {xs : List α} {p : β × List α} (hp : p ∈ groupByKey key xs) :
    p.1 ∈ xs.map key ∧ p.2 = xs.filter (fun y => decide (key y = p.1)) := by
  obtain ⟨k, hk, rfl⟩ := List.mem_map.mp hp
  exact ⟨((mem_dedupFirstAux _ _ _).mp hk).1, rfl⟩

theorem groupByKey_elem_key {α β : Type} [DecidableEq β] {key : α → β}
    {xs : List α} {p : β × List α} (hp : p ∈ groupByKey key xs)
    {y : α} (hy : y ∈ p.2) : key y = p.1 := by
  have h2 := (groupByKey_mem hp).2
  rw [h2] at hy
  exact of_decide_eq_true (List.mem_filter.mp hy).2

theorem groupByKey_complete {α β : Type} [DecidableEq β] {key : α → β}
    {xs : List α} {x : α} (hx : x ∈ xs) :
    (key x, xs.filter fun y => decide (key y = key x)) ∈ groupByKey key xs := by
  refine List.mem_map.mpr ⟨key x, ?_, rfl⟩
  exact (mem_dedupFirstAux _ _ _).mpr ⟨List.mem_map_of_mem key hx, by simp⟩

theorem length_filter_split {α : Type} (P Q : α → Bool) (l : List α) :
    (l.filter P).length
      = (l.filter fun x => P x && Q x).length
        + (l.filter fun x => P x && !Q x).length := by
  induction l with
  | nil => simp
  | cons x t ih =>
    by_cases hP : P x = true <;> by_cases hQ : Q x = true <;>
      simp only [List.filter_cons, hP, hQ, Bool.not_eq_true] <;>
      simp [hP, hQ, ih] <;> omega

theorem length_filter_not {α : Type} (P : α → Bool) (l : List α) :
    (l.filter P).length + (l.filter fun x => !P x).length = l.length := by
  induction l with
  | nil => simp
  | cons x t ih =>
    by_cases hP : P x = true <;>
      simp only [List.filter_cons, hP, Bool.not_eq_true] <;> simp [hP, ih] <;> omega

/-! ## File-type categories (`Config.FILE_TYPE_MAPPING`,
`utils.get_file_type_category`) -/

/-- `Config.FILE_TYPE_MAPPING`, in dict insertion order (the first category
whose extension list contains the extension wins). -/
def file_type_mapping : List (Str × List Str) :=
  [(chars "图片", [chars "jpg", chars "jpeg", chars "png", chars "gif",
     chars "bmp", chars "svg", chars "webp", chars "tiff"]),
   (chars "视频", [chars "mp4", chars "avi", chars "mkv", chars "mov",
     chars "wmv", chars "flv", chars "webm", chars "m4v"]),
   (chars "文档", [chars "doc", chars "docx", chars "pdf", chars "txt",
     chars "rtf", chars "odt", chars "pages"]),
   (chars "表格", [chars "xls", chars "xlsx", chars "csv", chars "ods",
     chars "numbers"]),
   (chars "演示", [chars "ppt", chars "pptx", chars "odp", chars "key"]),
   (chars "音频", [chars "mp3", chars "wav", chars "flac", chars "aac",
     chars "ogg", chars "wma", chars "m4a"]),
   (chars "代码", [chars "py", chars "js", chars "html", chars "css",
     chars "java", chars "cpp", chars "c", chars "php", chars "rb",
     chars "go"]),
   (chars "压缩", [chars "zip", chars "rar", chars "7z", chars "tar",
     chars "gz", chars "bz2"]),
   (chars "图像", [chars "jpg", chars "jpeg", chars "png", chars "gif",
     chars "bmp", chars "svg", chars "webp", chars "tiff"]),
   (chars "picture", [chars "jpg", chars "jpeg", chars "png", chars "gif",
     chars "bmp", chars "svg", chars "webp", chars "tiff"]),
   (chars "video", [chars "mp4", chars "avi", chars "mkv", chars "mov",
     chars "wmv", chars "flv", chars "webm", chars "m4v"]),
   (chars "document", [chars "doc", chars "docx", chars "pdf", chars "txt",
     chars "rtf", chars "odt", chars "pages"]),
   (chars "audio", [chars "mp3", chars "wav", chars "flac", chars "aac",
     chars "ogg", chars "wma", chars "m4a"]),
   (chars "archive", [chars "zip", chars "rar", chars "7z", chars "tar",
     chars "gz", chars "bz2"])]

/-- The catch-all category `"其他"`. -/
def catchAll : Str := chars "其他"

/-- `file_path.suffix.lower().lstrip('.')`. -/
def file_ext (nm : Str) : Str :=
  (((path_split nm).2).map Char.toLower).dropWhile fun c => c == '.'

/-- `utils.get_file_type_category`. -/
def get_file_type_category (nm : Str) : Str :=
  match file_type_mapping.find? (fun cm => cm.2.contains (file_ext nm)) with
  | some cm => cm.1
  | none => catchAll

/-! ## Organizer move loops (`advanced_operations._organize_by_*`)

A path is a list of segments; the filesystem is the list of existing paths.
`shutil.move` of a source file to a fresh destination removes the source
path and adds the destination path. -/

/-- A filesystem path, as segments. -/
abbrev FPath := List Str

/-- The evolving state of one organize pass: existing paths, destinations
moved to so far, and the `organized_files` counter. -/
structure OrgSt : Type where
  fs : List FPath
  moved : List FPath
  organized : ℕ
deriving DecidableEq

/-- Destination-path builder for the collision candidates of a file name. -/
def destCand (dir : FPath) (f : Str) (k : ℕ) : FPath := dir ++ [candName f k]

theorem destCand_injective (dir : FPath) (f : Str) :
    Function.Injective (destCand dir f) := by
  intro a b h
  have h2 := List.append_cancel_left h
  have h3 : candName f a = candName f b := by injection h2
  exact candName_injective f h3

/-- Move one file of a group: resolve the destination name against the
existing paths, then `shutil.move(src, dest)`. -/
def orgMoveFile (dir base : FPath) (st : OrgSt) (f : Str) : OrgSt :=
  { fs := (st.fs.erase (base ++ [f])) ++ [resolve_collision st.fs (destCand dir f)],
    moved := st.moved ++ [resolve_collision st.fs (destCand dir f)],
    organized := st.organized + 1 }

/-- Move every file of one group into `base / label`. -/
def orgMoveGroup (base : FPath) (st : OrgSt) (label : Str)
    (files : List Str) : OrgSt :=
  files.foldl (orgMoveFile (base ++ [label]) base) st

/-- One full group-creation pass: every group's files are moved into the
group's subdirectory of `base`, starting from filesystem `fs0`. -/
def orgMovePass (base : FPath) (fs0 : List FPath)
    (groups : List (Str × List Str)) : OrgSt :=
  groups.foldl (fun st g => orgMoveGroup base st g.1 g.2)
    { fs := fs0, moved := [], organized := 0 }

/-- Invariant carried through a pass over base `base`: the destinations so
far are pairwise distinct, still exist, and live two levels below `base`. -/
def OrgInv (base : FPath) (st : OrgSt) : Prop :=
  st.moved.Nodup ∧ ∀ p ∈ st.moved, p ∈ st.fs ∧ p.length = base.length + 2

theorem orgMoveFile_inv (base : FPath) (label f : Str) (st : OrgSt)
    (h : OrgInv base st) : OrgInv base (orgMoveFile (base ++ [label]) base st f) := by
  obtain ⟨hnd, hmem⟩ := h
  unfold OrgInv orgMoveFile
  set d := resolve_collision st.fs (destCand (base ++ [label]) f) with hd
  have hdest : d ∉ st.fs :=
    resolve_collision_not_mem st.fs (destCand (base ++ [label]) f)
      (destCand_injective _ f)
  have hdlen : d.length = base.length + 2 := by
    obtain ⟨k, hk⟩ : ∃ k, d = destCand (base ++ [label]) f k := by
      unfold resolve_collision at hd
      exact ⟨_, hd⟩
    rw [hk]
    simp [destCand]
  constructor
  · rw [List.nodup_append]
    refine ⟨hnd, List.nodup_singleton d, ?_⟩
    intro a ha hb
    rw [List.mem_singleton.mp hb] at ha
    exact hdest (hmem d ha).1
  · intro p hp
    rcases List.mem_append.mp hp with hp | hp
    · obtain ⟨hpfs, hplen⟩ := hmem p hp
      constructor
      · refine List.mem_append.mpr (Or.inl ?_)
        rw [List.mem_erase_of_ne ?_]
        · exact hpfs
        · intro hcon
          rw [hcon] at hplen
          simp at hplen
      · exact hplen
    · rw [List.mem_singleton.mp hp]
      exact ⟨List.mem_append.mpr (Or.inr (List.mem_singleton.mpr rfl)), hdlen⟩

theorem orgMoveGroup_inv (base : FPath) (label : Str) (files : List Str)
    (st : OrgSt) (h : OrgInv base st) :
    OrgInv base (orgMoveGroup base st label files) := by
  induction files generalizing st with
  | nil => exact h
  | cons f fs ih => exact ih _ (orgMoveFile_inv base label f st h)

theorem orgFold_inv (base : FPath) (groups : List (Str × List Str)) :
    ∀ st0 : OrgSt, OrgInv base st0 →
      OrgInv base (groups.foldl (fun st g => orgMoveGroup base st g.1 g.2) st0) := by
  induction groups with
  | nil => exact fun st0 h0 => h0
  | cons g gs ih =>
    intro st0 h0
    exact ih _ (orgMoveGroup_inv base g.1 g.2 st0 h0)

/-- C2 (confirmed): within one organize pass, the numeric-suffix collision
loop yields pairwise-distinct destination paths — no two source files are
moved to the same destination. -/
theorem c2_no_destination_collision (base : FPath) (fs0 : List FPath)
    (groups : List (Str × List Str)) :
    (orgMovePass base fs0 groups).moved.Nodup := by
  have h0 : OrgInv base { fs := fs0, moved := [], organized := 0 } :=
    ⟨List.nodup_nil, fun p hp => absurd hp (List.not_mem_nil p)⟩
  exact (orgFold_inv base groups _ h0).1

/-! ## `_organize_by_type` -/

/-- Result fields of `_organize_by_type` that the claims mention, plus the
resulting filesystem. -/
structure OrgTypeRes : Type where
  organized_files : ℕ
  created_directories : List FPath
  fs : List FPath

/-- One iteration of the `for file_type, file_list in type_groups.items()`
loop: the catch-all group is skipped (`continue`); otherwise the group
directory is recorded (if not already recorded) and the group's files are
moved. -/
def orgTypeStep (base : FPath) (r : OrgTypeRes) (g : Str × List Str) :
    OrgTypeRes :=
  if g.1 = catchAll then r
  else
    { organized_files := r.organized_files
        + (orgMoveGroup base { fs := r.fs, moved := [], organized := 0 }
            g.1 g.2).organized,
      created_directories :=
        if r.created_directories.contains (base ++ [g.1]) then
          r.created_directories
        else r.created_directories ++ [base ++ [g.1]],
      fs := (orgMoveGroup base { fs := r.fs, moved := [], organized := 0 }
          g.1 g.2).fs }

/-- `AdvancedFileOperations._organize_by_type`: group the top-level files by
category, then move each non-catch-all group into its subdirectory. -/
def _organize_by_type (files : List Str) (base : FPath)
    (fs0 : List FPath) : OrgTypeRes :=
  (groupByKey get_file_type_category files).foldl (orgTypeStep base)
    { organized_files := 0, created_directories := [], fs := fs0 }

theorem orgMoveGroup_organized (base : FPath) (label : Str)
    (files : List Str) : ∀ st : OrgSt,
    (orgMoveGroup base st label files).organized = st.organized + files.length := by
  induction files with
  | nil => intro st; simp [orgMoveGroup]
  | cons f fs ih =>
    intro st
    show (orgMoveGroup base (orgMoveFile (base ++ [label]) base st f) label fs).organized = _
    rw [ih]
    simp [orgMoveFile]
    omega

theorem orgTypeFold_organized (base : FPath) (gs : List (Str × List Str)) :
    ∀ r : OrgTypeRes,
      ((gs.foldl (orgTypeStep base) r).organized_files
        = r.organized_files
          + (gs.map fun g => if g.1 = catchAll then 0 else g.2.length).sum) := by
  induction gs with
  | nil => intro r; simp
  | cons g gs ih =>
    intro r
    rw [List.foldl_cons, ih, List.map_cons, List.sum_cons]
    by_cases hg : g.1 = catchAll
    · simp [orgTypeStep, hg]
    · simp only [orgTypeStep, hg, if_neg, if_false]
      rw [orgMoveGroup_organized]
      have hzero : ({ fs := r.fs, moved := [], organized := 0 } : OrgSt).organized
          = 0 := rfl
      omega

theorem sum_over_keys {α β : Type} [DecidableEq β] (key : α → β) (bad : β) :
    ∀ (keys : List β) (xs : List α), keys.Nodup →
      (∀ x ∈ xs, key x ≠ bad → key x ∈ keys) →
      ((keys.map fun k =>
          if k = bad then 0
          else (xs.filter fun y => decide (key y = k)).length).sum
        = (xs.filter fun y => !(decide (key y = bad))).length) := by
  intro keys
  induction keys with
  | nil =>
    intro xs _ hcov
    have : xs.filter (fun y => !(decide (key y = bad))) = [] := by
      rw [List.filter_eq_nil_iff]
      intro y hy
      by_cases hk : key y = bad
      · simp [hk]
      · exact absurd (hcov y hy hk) (List.not_mem_nil _)
    simp [this]
  | cons k ks ih =>
    intro xs hnd hcov
    obtain ⟨hk_not, hks_nd⟩ := List.nodup_cons.mp hnd
    rw [List.map_cons, List.sum_cons]
    have hswap : ∀ j ∈ ks,
        (xs.filter fun y => decide (key y = j))
          = ((xs.filter fun y => !(decide (key y = k))).filter
              fun y => decide (key y = j)) := by
      intro j hj
      rw [List.filter_filter]
      refine (List.filter_congr ?_).symm
      intro y _
      by_cases hyj : key y = j
      · have hjk : j ≠ k := fun hc => hk_not (hc ▸ hj)
        simp [hyj, hjk]
      · simp [hyj]
    have hmapeq :
        (ks.map fun j =>
            if j = bad then 0
            else (xs.filter fun y => decide (key y = j)).length)
          = ks.map fun j =>
            if j = bad then 0
            else (((xs.filter fun y => !(decide (key y = k))).filter
                fun y => decide (key y = j))).length := by
      refine List.map_congr_left ?_
      intro j hj
      rw [hswap j hj]
    rw [hmapeq, ih (xs.filter fun y => !(decide (key y = k))) hks_nd ?_]
    · rw [List.filter_filter]
      have hsplit := length_filter_split
        (fun y => !(decide (key y = bad))) (fun y => decide (key y = k)) xs
      by_cases hkb : k = bad
      · subst hkb
        rw [if_pos rfl]
        have hcongr : (xs.filter fun a =>
              !(decide (key a = k)) && !(decide (key a = k)))
            = xs.filter fun y => !(decide (key y = k)) := by
          refine List.filter_congr ?_
          intro y _
          simp [Bool.and_self]
        rw [hcongr]
        have hzero : (xs.filter fun x =>
            !(decide (key x = k)) && (decide (key x = k))) = [] := by
          rw [List.filter_eq_nil_iff]
          intro y _
          by_cases hyk : key y = k <;> simp [hyk]
        have hz := congrArg List.length hzero
        simp only [List.length_nil] at hz
        omega
      · rw [if_neg hkb]
        have hone : (xs.filter fun x =>
              !(decide (key x = bad)) && (decide (key x = k)))
            = xs.filter fun y => decide (key y = k) := by
          refine List.filter_congr ?_
          intro y _
          by_cases hyk : key y = k
          · have hyb : ¬(key y = bad) := by rw [hyk]; exact hkb
            simp [hyk, hyb, hkb]
          · simp [hyk]
        have hlen := congrArg List.length hone
        omega
    · intro x hx hxb
      have hmem := List.mem_filter.mp hx
      have hx_in := hcov x hmem.1 hxb
      rcases List.mem_cons.mp hx_in with hc | hc
      · exfalso
        have := hmem.2
        rw [hc] at this
        simp at this
      · exact hc

theorem orgTypeFold_created (base : FPath) (gs : List (Str × List Str)) :
    ∀ r : OrgTypeRes,
      (∀ d ∈ r.created_directories, ∃ c, c ≠ catchAll ∧ d = base ++ [c]) →
      ∀ d ∈ (gs.foldl (orgTypeStep base) r).created_directories,
        ∃ c, c ≠ catchAll ∧ d = base ++ [c] := by
  induction gs with
  | nil => exact fun r hr => hr
  | cons g gs ih =>
    intro r hr
    refine ih _ ?_
    intro d hd
    unfold orgTypeStep at hd
    by_cases hg : g.1 = catchAll
    · rw [if_pos hg] at hd
      exact hr d hd
    · rw [if_neg hg] at hd
      simp only at hd
      by_cases hc : r.created_directories.contains (base ++ [g.1])
      · rw [if_pos hc] at hd
        exact hr d hd
      · rw [if_neg hc] at hd
        rcases List.mem_append.mp hd with hd | hd
        · exact hr d hd
        · exact ⟨g.1, hg, List.mem_singleton.mp hd⟩

theorem orgMoveFile_keep (base : FPath) (label f g : Str) (st : OrgSt)
    (hne : f ≠ g) :
    ((base ++ [g]) ∈ (orgMoveFile (base ++ [label]) base st f).fs
      ↔ (base ++ [g]) ∈ st.fs) := by
  unfold orgMoveFile
  simp only
  have hdlen : (resolve_collision st.fs (destCand (base ++ [label]) f)).length
      = base.length + 2 := by
    obtain ⟨k, hk⟩ : ∃ k, resolve_collision st.fs (destCand (base ++ [label]) f)
        = destCand (base ++ [label]) f k := by
      unfold resolve_collision
      exact ⟨_, rfl⟩
    rw [hk]
    simp [destCand]
  constructor
  · intro hmem
    rcases List.mem_append.mp hmem with hmem | hmem
    · rw [List.mem_erase_of_ne ?_] at hmem
      · exact hmem
      · intro hcon
        have := List.append_cancel_left hcon
        exact hne (List.singleton_injective this).symm
    · exfalso
      have := congrArg List.length (List.mem_singleton.mp hmem)
      rw [hdlen] at this
      simp at this
  · intro hmem
    refine List.mem_append.mpr (Or.inl ?_)
    rw [List.mem_erase_of_ne ?_]
    · exact hmem
    · intro hcon
      have := List.append_cancel_left hcon
      exact hne (List.singleton_injective this).symm

theorem orgMoveGroup_keep (base : FPath) (label g : Str) (files : List Str)
    (hall : ∀ f ∈ files, f ≠ g) : ∀ st : OrgSt,
    ((base ++ [g]) ∈ (orgMoveGroup base st label files).fs
      ↔ (base ++ [g]) ∈ st.fs) := by
  induction files with
  | nil => exact fun st => Iff.rfl
  | cons f fs ih =>
    intro st
    show (base ++ [g]) ∈ (orgMoveGroup base (orgMoveFile _ base st f) label fs).fs ↔ _
    rw [ih (fun x hx => hall x (List.mem_cons_of_mem _ hx))]
    exact orgMoveFile_keep base label f g st (hall f (List.mem_cons_self _ _))

theorem orgTypeFold_keep (base : FPath) (g : Str)
    (hg : get_file_type_category g = catchAll) (gs : List (Str × List Str))
    (hgs : ∀ p ∈ gs, ∀ f ∈ p.2, get_file_type_category f = p.1) :
    ∀ r : OrgTypeRes,
      ((base ++ [g]) ∈ (gs.foldl (orgTypeStep base) r).fs
        ↔ (base ++ [g]) ∈ r.fs) := by
  induction gs with
  | nil => exact fun r => Iff.rfl
  | cons p ps ih =>
    intro r
    rw [List.foldl_cons,
      ih (fun q hq => hgs q (List.mem_cons_of_mem _ hq)) (orgTypeStep base r p)]
    unfold orgTypeStep
    by_cases hp : p.1 = catchAll
    · rw [if_pos hp]
    · rw [if_neg hp]
      simp only
      refine orgMoveGroup_keep base p.1 g p.2 ?_ _
      intro f hf hcon
      subst hcon
      exact hp ((hgs p (List.mem_cons_self _ _) f hf).symm.trans hg)

/-- C5 (confirmed): organizing by type never creates a group directory for
the catch-all category `"其他"`, its files are left in place, and
`organized_files` plus the number of catch-all files equals the number of
top-level files at the start of the pass. -/
theorem c5_organize_by_type (files : List Str) (base : FPath)
    (fs0 : List FPath) :
    (∀ d ∈ (_organize_by_type files base fs0).created_directories,
        d ≠ base ++ [catchAll])
    ∧ (_organize_by_type files base fs0).organized_files
        + files.countP (fun f => decide (get_file_type_category f = catchAll))
        = files.length
    ∧ ∀ f ∈ files, get_file_type_category f = catchAll →
        ((base ++ [f]) ∈ (_organize_by_type files base fs0).fs
          ↔ (base ++ [f]) ∈ fs0) := by
  refine ⟨?_, ?_, ?_⟩
  · intro d hd
    obtain ⟨c, hc, rfl⟩ := orgTypeFold_created base _ _
      (fun d hd => absurd hd (List.not_mem_nil d)) d hd
    intro hcon
    exact hc (List.singleton_injective (List.append_cancel_left hcon))
  · unfold _organize_by_type
    rw [orgTypeFold_organized]
    have hsum : ((groupByKey get_file_type_category files).map
        fun g => if g.1 = catchAll then 0 else g.2.length).sum
        = (files.filter fun y =>
            !(decide (get_file_type_category y = catchAll))).length := by
      unfold groupByKey
      rw [List.map_map]
      have hmc : List.map ((fun g : Str × List Str =>
              if g.1 = catchAll then 0 else g.2.length)
            ∘ fun k =>
              (k, files.filter fun y => decide (get_file_type_category y = k)))
            (dedupFirstAux [] (List.map get_file_type_category files))
          = List.map (fun k => if k = catchAll then 0
              else (files.filter
                  fun y => decide (get_file_type_category y = k)).length)
            (dedupFirstAux [] (List.map get_file_type_category files)) :=
        List.map_congr_left fun k _ => rfl
      refine Eq.trans (congrArg List.sum hmc) ?_
      refine sum_over_keys get_file_type_category catchAll _ files
        (nodup_dedupFirstAux _ _) ?_
      intro x hx _
      exact (mem_dedupFirstAux _ _ _).mpr
        ⟨List.mem_map_of_mem get_file_type_category hx, List.not_mem_nil _⟩
    rw [hsum, List.countP_eq_length_filter]
    have := length_filter_not
      (fun y => !(decide (get_file_type_category y = catchAll))) files
    have hnn : (files.filter fun x =>
          !(!(decide (get_file_type_category x = catchAll))))
        = files.filter fun y => decide (get_file_type_category y = catchAll) := by
      refine List.filter_congr ?_
      intro y _
      simp
    rw [hnn] at this
    have h0 : ({ organized_files := 0, created_directories := [], fs := fs0 }
        : OrgTypeRes).organized_files = 0 := rfl
    omega
  · intro f hf hcat
    unfold _organize_by_type
    exact orgTypeFold_keep base f hcat _
      (fun p hp x hx => groupByKey_elem_key hp hx) _

/-! ## Batch rename (`advanced_operations.batch_rename_files`)

File names inside one directory; the directory's existing entries are the
list of names.  A file's modification-time strings are carried as data
(embedding `strftime` output), since no claim depends on calendar
arithmetic. -/

/-- Python `str.replace`, left to right, non-overlapping; fuel-bounded to
keep the recursion structural (`replaceAll` supplies enough fuel). -/
def replaceAllAux (pat rep : Str) : ℕ → Str → Str
  | 0, s => s
  | fuel + 1, s =>
    match s with
    | [] => []
    | c :: rest =>
      if pat.isPrefixOf (c :: rest) ∧ pat ≠ [] then
        rep ++ replaceAllAux pat rep fuel ((c :: rest).drop pat.length)
      else c :: replaceAllAux pat rep fuel rest

def replaceAll (pat rep s : Str) : Str := replaceAllAux pat rep (s.length + 1) s

/-- `f"{index:02d}"`. -/
def pad2 (n : ℕ) : Str := if n < 10 then '0' :: natRepr n else natRepr n

/-- `f"{index:03d}"`. -/
def pad3 (n : ℕ) : Str :=
  if n < 10 then '0' :: '0' :: natRepr n
  else if n < 100 then '0' :: natRepr n
  else natRepr n

/-- The characters `re.sub` replaces in `utils.clean_filename`. -/
def illegalChar (c : Char) : Bool :=
  c == '<' || c == '>' || c == ':' || c == '"' || c == '/' || c == '\\'
    || c == '|' || c == '?' || c == '*'

/-- A character stripped from the ends by `.strip('. ')`. -/
def stripCh (c : Char) : Bool := c == '.' || c == ' '

/-- `utils.clean_filename`. -/
def clean_filename (s : Str) : Str :=
  let cleaned := s.map fun c => if illegalChar c then '_' else c
  let stripped :=
    ((cleaned.dropWhile stripCh).reverse.dropWhile stripCh).reverse
  if stripped.isEmpty then chars "unnamed_file" else stripped

/-- A file as seen by the renamer: its name plus the stat-derived strings
substituted for the date placeholders. -/
structure FileInfo : Type where
  name : Str
  size : ℕ
  dateStr : Str
  timeStr : Str
  yearStr : Str
  monthStr : Str
  dayStr : Str
deriving DecidableEq

/-- `AdvancedFileOperations._apply_rename_pattern`: substitute the
placeholders in dict order, clean the result, and reappend the original
extension if the substituted name lost it. -/
def _apply_rename_pattern (f : FileInfo) (pattern : Str) (index : ℕ) : Str :=
  let repls : List (Str × Str) :=
    [(chars "\x7bname\x7d", (path_split f.name).1),
     (chars "\x7bext\x7d", (path_split f.name).2),
     (chars "\x7bindex\x7d", natRepr index),
     (chars "\x7bindex:02d\x7d", pad2 index),
     (chars "\x7bindex:03d\x7d", pad3 index),
     (chars "\x7bdate\x7d", f.dateStr),
     (chars "\x7btime\x7d", f.timeStr),
     (chars "\x7byear\x7d", f.yearStr),
     (chars "\x7bmonth\x7d", f.monthStr),
     (chars "\x7bday\x7d", f.dayStr),
     (chars "\x7bsize\x7d", natRepr f.size)]
  let nm := clean_filename
    (repls.foldl (fun acc pr => replaceAll pr.1 pr.2 acc) pattern)
  if (path_split nm).2 = [] ∧ (path_split f.name).2 ≠ [] then
    nm ++ (path_split f.name).2
  else nm

/-- POSIX `rename(old, new)` within one directory: the source entry
disappears and the destination entry is (over)written. -/
def fsRename (fs : List Str) (old new : Str) : List Str :=
  ((fs.erase old).erase new) ++ [new]

inductive RenameStatus : Type where
  | preview
  | renamed
  | unchanged
deriving DecidableEq

/-- One entry of `results["renamed_files"]`. -/
structure RenameInfo : Type where
  original : Str
  new : Str
  status : RenameStatus
deriving DecidableEq

/-- The `for i, file_path in enumerate(files, 1)` loop of
`batch_rename_files`: compute the raw name, resolve collisions against the
current directory contents (skipping the file's own name), and rename
unless previewing or unchanged. -/
def renameAux (pattern : Str) (preview : Bool) :
    List FileInfo → ℕ → List Str → List RenameInfo × List Str
  | [], _, fs => ([], fs)
  | f :: rest, i, fs =>
    let d := resolve_rename fs f.name
      (candName (_apply_rename_pattern f pattern i))
    if preview then
      let r := renameAux pattern preview rest (i + 1) fs
      (⟨f.name, d, .preview⟩ :: r.1, r.2)
    else if d = f.name then
      let r := renameAux pattern preview rest (i + 1) fs
      (⟨f.name, d, .unchanged⟩ :: r.1, r.2)
    else
      let r := renameAux pattern preview rest (i + 1) (fsRename fs f.name d)
      (⟨f.name, d, .renamed⟩ :: r.1, r.2)

inductive OpKind : Type where
  | batchRename
  | smartOrganize
  | cleanupEmptyDirs
deriving DecidableEq

/-- One entry of `self.operation_history`. -/
structure HistEntry : Type where
  op : OpKind
  infos : List RenameInfo
deriving DecidableEq

/-- Directory contents plus the operation history of the
`AdvancedFileOperations` instance. -/
structure RenSt : Type where
  fs : List Str
  history : List HistEntry
deriving DecidableEq

/-- `AdvancedFileOperations.batch_rename_files` on a directory listing
`files`: returns `renamed_files` and the new state; the history record is
appended only when not previewing. -/
def batch_rename_files (st : RenSt) (files : List FileInfo) (pattern : Str)
    (preview : Bool) : List RenameInfo × RenSt :=
  ((renameAux pattern preview files 1 st.fs).1,
   { fs := (renameAux pattern preview files 1 st.fs).2,
     history :=
       if preview then st.history
       else st.history
         ++ [⟨OpKind.batchRename, (renameAux pattern preview files 1 st.fs).1⟩] })

theorem renameAux_preview (pattern : Str) (files : List FileInfo) :
    ∀ (i : ℕ) (fs : List Str),
      (renameAux pattern true files i fs).2 = fs
      ∧ ∀ info ∈ (renameAux pattern true files i fs).1,
          info.status = RenameStatus.preview := by
  induction files with
  | nil => intro i fs; exact ⟨rfl, fun info h => absurd h (List.not_mem_nil _)⟩
  | cons f rest ih =>
    intro i fs
    show ((⟨f.name, _, .preview⟩ :: (renameAux pattern true rest (i + 1) fs).1,
        (renameAux pattern true rest (i + 1) fs).2).2 = fs ∧ _)
    refine ⟨(ih (i + 1) fs).1, ?_⟩
    intro info hinfo
    rcases List.mem_cons.mp hinfo with rfl | hinfo
    · rfl
    · exact (ih (i + 1) fs).2 info hinfo

/-- C7 (confirmed): a preview rename mutates neither the directory nor the
history, and every reported entry has status `preview` while still carrying
the computed original → new mapping. -/
theorem c7_preview_is_pure (st : RenSt) (files : List FileInfo)
    (pattern : Str) :
    (batch_rename_files st files pattern true).2.fs = st.fs
    ∧ (batch_rename_files st files pattern true).2.history = st.history
    ∧ ∀ info ∈ (batch_rename_files st files pattern true).1,
        info.status = RenameStatus.preview := by
  refine ⟨(renameAux_preview pattern files 1 st.fs).1, rfl, ?_⟩
  intro info hinfo
  exact (renameAux_preview pattern files 1 st.fs).2 info hinfo

/-- C3 (counterexample): with files `a`, `b` and the constant pattern `x`,
preview reports `a → x, b → x` (the collision check runs against the
unchanged directory), while apply renames `a` to `x` first and therefore
reports `a → x, b → x_1`: the two mappings differ. -/
theorem c3_preview_apply_counterexample :
    ((batch_rename_files ⟨[chars "a", chars "b"], []⟩
        [⟨chars "a", 0, [], [], [], [], []⟩, ⟨chars "b", 0, [], [], [], [], []⟩]
        (chars "x") true).1.map fun r => (r.original, r.new))
      = [(chars "a", chars "x"), (chars "b", chars "x")]
    ∧ ((batch_rename_files ⟨[chars "a", chars "b"], []⟩
        [⟨chars "a", 0, [], [], [], [], []⟩, ⟨chars "b", 0, [], [], [], [], []⟩]
        (chars "x") false).1.map fun r => (r.original, r.new))
      = [(chars "a", chars "x"), (chars "b", chars "x_1")]
    ∧ ((batch_rename_files ⟨[chars "a", chars "b"], []⟩
        [⟨chars "a", 0, [], [], [], [], []⟩, ⟨chars "b", 0, [], [], [], [], []⟩]
        (chars "x") true).1.map fun r => (r.original, r.new))
      ≠ ((batch_rename_files ⟨[chars "a", chars "b"], []⟩
        [⟨chars "a", 0, [], [], [], [], []⟩, ⟨chars "b", 0, [], [], [], [], []⟩]
        (chars "x") false).1.map fun r => (r.original, r.new)) :=
  ⟨by decide, by decide, by decide⟩

/-- The non-interference condition under which preview and apply agree:
every computed raw name either equals its own file's name, or is absent
from the original directory listing and distinct from every earlier
changed file's raw name. -/
def previewApplyOk (pattern : Str) (fs0 : List Str) :
    ℕ → List Str → List FileInfo → Bool
  | _, _, [] => true
  | i, used, f :: rest =>
    if _apply_rename_pattern f pattern i = f.name then
      previewApplyOk pattern fs0 (i + 1) used rest
    else
      (!(fs0.contains (_apply_rename_pattern f pattern i))
          && !(used.contains (_apply_rename_pattern f pattern i)))
        && previewApplyOk pattern fs0 (i + 1)
            (used ++ [_apply_rename_pattern f pattern i]) rest

set_option maxHeartbeats 1600000 in
theorem renameAux_preview_apply (pattern : Str) (fs0 : List Str) :
    ∀ (files : List FileInfo) (i : ℕ) (used fsA : List Str),
      (∀ x ∈ fsA, x ∈ fs0 ∨ x ∈ used) →
      previewApplyOk pattern fs0 i used files = true →
      ((renameAux pattern true files i fs0).1.map fun r => (r.original, r.new))
        = (renameAux pattern false files i fsA).1.map
            fun r => (r.original, r.new) := by
  intro files
  induction files with
  | nil => intro i used fsA _ _; rfl
  | cons f rest ih =>
    intro i used fsA hsub hok
    have hcand0 : candName (_apply_rename_pattern f pattern i) 0
        = _apply_rename_pattern f pattern i := rfl
    by_cases hn : _apply_rename_pattern f pattern i = f.name
    · have hprev : resolve_rename fs0 f.name
          (candName (_apply_rename_pattern f pattern i))
          = _apply_rename_pattern f pattern i :=
        resolve_rename_first _ _ _ (Or.inl (hcand0.trans hn))
      have happ : resolve_rename fsA f.name
          (candName (_apply_rename_pattern f pattern i))
          = _apply_rename_pattern f pattern i :=
        resolve_rename_first _ _ _ (Or.inl (hcand0.trans hn))
      have hok' : previewApplyOk pattern fs0 (i + 1) used rest = true := by
        unfold previewApplyOk at hok
        rwa [if_pos hn] at hok
      show ((⟨f.name, resolve_rename fs0 f.name _, .preview⟩
            :: (renameAux pattern true rest (i + 1) fs0).1).map
          fun r => (r.original, r.new)) = _
      rw [List.map_cons, hprev]
      have happlyEq : renameAux pattern false (f :: rest) i fsA
          = (⟨f.name, resolve_rename fsA f.name
                (candName (_apply_rename_pattern f pattern i)),
              .unchanged⟩ :: (renameAux pattern false rest (i + 1) fsA).1,
             (renameAux pattern false rest (i + 1) fsA).2) := by
        simp only [renameAux]
        rw [if_neg (by simp), if_pos (happ.trans hn)]
      have htail := ih (i + 1) used fsA hsub hok'
      rw [happlyEq, List.map_cons, happ, hn, htail]
    · have hok2 := hok
      unfold previewApplyOk at hok2
      rw [if_neg hn] at hok2
      obtain ⟨hfresh, hokrest⟩ := Bool.and_eq_true .. |>.mp hok2
      obtain ⟨hnfs0, hnused⟩ := Bool.and_eq_true .. |>.mp hfresh
      have hnotfs0 : _apply_rename_pattern f pattern i ∉ fs0 := by
        simpa using hnfs0
      have hnotused : _apply_rename_pattern f pattern i ∉ used := by
        simpa using hnused
      have hprev : resolve_rename fs0 f.name
          (candName (_apply_rename_pattern f pattern i))
          = _apply_rename_pattern f pattern i :=
        resolve_rename_first _ _ _ (Or.inr (hcand0 ▸ hnotfs0))
      have hnotfsA : _apply_rename_pattern f pattern i ∉ fsA := by
        intro hmem
        rcases hsub _ hmem with h | h
        · exact hnotfs0 h
        · exact hnotused h
      have happ : resolve_rename fsA f.name
          (candName (_apply_rename_pattern f pattern i))
          = _apply_rename_pattern f pattern i :=
        resolve_rename_first _ _ _ (Or.inr (hcand0 ▸ hnotfsA))
      show ((⟨f.name, resolve_rename fs0 f.name _, .preview⟩
            :: (renameAux pattern true rest (i + 1) fs0).1).map
          fun r => (r.original, r.new)) = _
      rw [List.map_cons, hprev]
      have happlyEq : renameAux pattern false (f :: rest) i fsA
          = (⟨f.name, resolve_rename fsA f.name
                (candName (_apply_rename_pattern f pattern i)), .renamed⟩
              :: (renameAux pattern false rest (i + 1)
                  (fsRename fsA f.name
                    (resolve_rename fsA f.name
                      (candName (_apply_rename_pattern f pattern i))))).1,
             (renameAux pattern false rest (i + 1)
                  (fsRename fsA f.name
                    (resolve_rename fsA f.name
                      (candName (_apply_rename_pattern f pattern i))))).2) := by
        simp only [renameAux]
        rw [if_neg (by simp), if_neg (by rw [happ]; exact hn)]
      have hsub2 : ∀ x ∈ fsRename fsA f.name
          (resolve_rename fsA f.name
            (candName (_apply_rename_pattern f pattern i))),
          x ∈ fs0 ∨ x ∈ used ++ [_apply_rename_pattern f pattern i] := by
        intro x hx
        rw [happ] at hx
        unfold fsRename at hx
        rcases List.mem_append.mp hx with hx | hx
        · rcases hsub x (List.erase_subset _ _ (List.erase_subset _ _ hx)) with h | h
          · exact Or.inl h
          · exact Or.inr (List.mem_append.mpr (Or.inl h))
        · rw [List.mem_singleton.mp hx]
          exact Or.inr
            (List.mem_append.mpr (Or.inr (List.mem_singleton.mpr rfl)))
      have htail := ih (i + 1) (used ++ [_apply_rename_pattern f pattern i])
        (fsRename fsA f.name (resolve_rename fsA f.name
          (candName (_apply_rename_pattern f pattern i)))) hsub2 hokrest
      rw [happ] at htail
      rw [happlyEq, List.map_cons, happ, htail]

/-- C3 (amended): preview followed by apply on the unchanged directory
produces the identical original → new mapping provided every computed raw
name either equals its own file's name or is absent from the original
listing and distinct from the other changed files' raw names; without that
proviso the mappings can differ, because the apply pass resolves collisions
against the directory as already modified by its earlier renames. -/
theorem c3_preview_apply_agree (st : RenSt) (files : List FileInfo)
    (pattern : Str)
    (h : previewApplyOk pattern st.fs 1 [] files = true) :
    ((batch_rename_files st files pattern true).1.map
        fun r => (r.original, r.new))
      = (batch_rename_files st files pattern false).1.map
          fun r => (r.original, r.new) :=
  renameAux_preview_apply pattern st.fs files 1 [] st.fs
    (fun x hx => Or.inl hx) h

/-- C3 witness: one file `a` renamed by the constant pattern `x` satisfies
the proviso, and the preview and apply mappings agree. -/
theorem c3_preview_apply_agree_witness :
    ((batch_rename_files ⟨[chars "a"], []⟩ [⟨chars "a", 0, [], [], [], [], []⟩]
        (chars "x") true).1.map fun r => (r.original, r.new))
      = (batch_rename_files ⟨[chars "a"], []⟩ [⟨chars "a", 0, [], [], [], [], []⟩]
          (chars "x") false).1.map fun r => (r.original, r.new) :=
  c3_preview_apply_agree ⟨[chars "a"], []⟩ [⟨chars "a", 0, [], [], [], [], []⟩]
    (chars "x") (by decide)

/-! ## Duplicate detection (`file_analyzer.find_duplicate_files`,
`calculate_file_hash`)

Opening a file may fail (`PermissionError`/`OSError`); the content hash of
a path is therefore an `Option`-valued input `h`, with `none` meaning the
open raises.  `calculate_file_hash` swallows the exception and returns the
empty string, so the `except` clause in `find_duplicate_files` never
fires. -/

/-- One entry of `files_info` (paths that errored on `stat` were already
skipped while building the listing). -/
structure AFile : Type where
  name : Str
  path : Str
  size : ℕ
deriving DecidableEq

/-- `FileAnalyzer.calculate_file_hash`: the md5 hex digest, or `""` when
the open raises. -/
def calculate_file_hash (h : Str → Option Str) (p : Str) : Str :=
  match h p with
  | some v => v
  | none => []

/-- One reported duplicate group. -/
structure DupGroup : Type where
  hash : Str
  sizeB : ℕ
  count : ℕ
  paths : List Str
deriving DecidableEq

/-- `FileAnalyzer.find_duplicate_files`: bucket the non-empty files by
size, hash the buckets with more than one member, and report every hash
sub-group with more than one member. -/
def find_duplicate_files (h : Str → Option Str) (files : List AFile) :
    List DupGroup :=
  (groupByKey (fun x : AFile => x.size)
      (files.filter fun x => decide (0 < x.size))).flatMap
    fun sg =>
      if sg.2.length ≤ 1 then []
      else
        (groupByKey (fun x : AFile => calculate_file_hash h x.path)
            sg.2).filterMap
          fun hg =>
            if hg.2.length ≤ 1 then none
            else some ⟨hg.1, sg.1, hg.2.length, hg.2.map AFile.path⟩

theorem mem_find_duplicate_files (h : Str → Option Str) (files : List AFile)
    (g : DupGroup) :
    g ∈ find_duplicate_files h files ↔
      ∃ sg ∈ groupByKey (fun x : AFile => x.size)
          (files.filter fun x => decide (0 < x.size)),
        1 < sg.2.length ∧ ∃ hg ∈ groupByKey
            (fun x : AFile => calculate_file_hash h x.path) sg.2,
          1 < hg.2.length
            ∧ g = ⟨hg.1, sg.1, hg.2.length, hg.2.map AFile.path⟩ := by
  unfold find_duplicate_files
  rw [List.mem_flatMap]
  constructor
  · rintro ⟨sg, hsg, hgmem⟩
    by_cases hlen : sg.2.length ≤ 1
    · rw [if_pos hlen] at hgmem
      cases hgmem
    · rw [if_neg hlen] at hgmem
      obtain ⟨hg, hhg, hif⟩ := List.mem_filterMap.mp hgmem
      by_cases hlen2 : hg.2.length ≤ 1
      · rw [if_pos hlen2] at hif
        cases hif
      · rw [if_neg hlen2] at hif
        exact ⟨sg, hsg, by omega, hg, hhg, by omega, (Option.some.inj hif).symm⟩
  · rintro ⟨sg, hsg, hlen, hg, hhg, hlen2, rfl⟩
    refine ⟨sg, hsg, ?_⟩
    rw [if_neg (by omega)]
    exact List.mem_filterMap.mpr ⟨hg, hhg, by rw [if_neg (by omega)]⟩

/-- C4 (counterexample): two same-size files that both error on open are
both hashed to `""` and reported together as a duplicate group, instead of
being excluded. -/
theorem c4_error_counterexample :
    (fun _ : Str => (none : Option Str)) (chars "p1") = none
    ∧ (fun _ : Str => (none : Option Str)) (chars "p2") = none
    ∧ find_duplicate_files (fun _ => none)
        [⟨chars "a", chars "p1", 5⟩, ⟨chars "b", chars "p2", 5⟩]
      = [⟨[], 5, 2, [chars "p1", chars "p2"]⟩] :=
  ⟨rfl, rfl, by decide⟩

/-- C4 (amended): a file that errors on open is hashed to the empty string
rather than excluded: it contributes no error entry anywhere (the result
has no error field at all), it is never reported when its size is zero, and
when its size is positive it appears in a reported duplicate group exactly
when at least two files of its size bucket hash to the empty string. -/
theorem c4_error_files (h : Str → Option Str) (files : List AFile)
    (f : AFile) (hnd : (files.map AFile.path).Nodup) (hf : f ∈ files)
    (herr : h f.path = none) :
    (f.size = 0 → ∀ g ∈ find_duplicate_files h files, f.path ∉ g.paths)
    ∧ (0 < f.size →
        ((∃ g ∈ find_duplicate_files h files, f.path ∈ g.paths)
          ↔ 2 ≤ (files.filter fun x => decide (x.size = f.size)
              && decide (0 < x.size)
              && decide (calculate_file_hash h x.path = [])).length)) := by
  have hcalc : calculate_file_hash h f.path = [] := by
    unfold calculate_file_hash
    rw [herr]
  have hinj : ∀ x ∈ files, x.path = f.path → x = f :=
    fun x hx hpx => List.inj_on_of_nodup_map hnd hx hf hpx
  have hBeq : (((files.filter fun x => decide (0 < x.size)).filter
          fun y => decide (y.size = f.size)).filter
        fun y => decide (calculate_file_hash h y.path = []))
      = files.filter fun x => decide (x.size = f.size)
          && decide (0 < x.size)
          && decide (calculate_file_hash h x.path = []) := by
    rw [List.filter_filter, List.filter_filter]
    refine List.filter_congr ?_
    intro x _
    by_cases h1 : x.size = f.size <;> by_cases h2 : 0 < x.size <;>
      by_cases h3 : calculate_file_hash h x.path = [] <;>
        simp [h1, h2, h3]
  constructor
  · intro hsz g hg hmem
    obtain ⟨sg, hsg, _, hg2, hhg, _, hgval⟩ :=
      (mem_find_duplicate_files h files g).mp hg
    rw [hgval] at hmem
    obtain ⟨rec, hrec, hrecp⟩ := List.mem_map.mp hmem
    have hrec_sg : rec ∈ sg.2 := by
      rw [(groupByKey_mem hhg).2] at hrec
      exact (List.mem_filter.mp hrec).1
    have hrec_pos : rec ∈ files.filter fun x => decide (0 < x.size) := by
      rw [(groupByKey_mem hsg).2] at hrec_sg
      exact (List.mem_filter.mp hrec_sg).1
    have hrec_sz : 0 < rec.size := by
      simpa using (List.mem_filter.mp hrec_pos).2
    rw [hinj rec (List.mem_filter.mp hrec_pos).1 hrecp] at hrec_sz
    omega
  · intro hsz
    constructor
    · rintro ⟨g, hg, hmem⟩
      obtain ⟨sg, hsg, hlen1, hg2, hhg, hlen2, hgval⟩ :=
        (mem_find_duplicate_files h files g).mp hg
      rw [hgval] at hmem
      obtain ⟨rec, hrec, hrecp⟩ := List.mem_map.mp hmem
      have hrec_sg : rec ∈ sg.2 := by
        rw [(groupByKey_mem hhg).2] at hrec
        exact (List.mem_filter.mp hrec).1
      have hrec_pos : rec ∈ files.filter fun x => decide (0 < x.size) := by
        rw [(groupByKey_mem hsg).2] at hrec_sg
        exact (List.mem_filter.mp hrec_sg).1
      have hrecf : rec = f := hinj rec (List.mem_filter.mp hrec_pos).1 hrecp
      rw [hrecf] at hrec
      have hsz1 : sg.1 = f.size := by
        have hfsg : f ∈ sg.2 := by
          rw [(groupByKey_mem hhg).2] at hrec
          exact (List.mem_filter.mp hrec).1
        exact (groupByKey_elem_key hsg hfsg).symm ▸ rfl
      have hhash1 : hg2.1 = [] := by
        rw [← groupByKey_elem_key hhg hrec, hcalc]
      have hval : hg2.2 = files.filter fun x => decide (x.size = f.size)
          && decide (0 < x.size)
          && decide (calculate_file_hash h x.path = []) := by
        rw [(groupByKey_mem hhg).2, (groupByKey_mem hsg).2, hhash1, hsz1, hBeq]
      rw [← hval]
      omega
    · intro hB
      have hfpos : f ∈ files.filter fun x => decide (0 < x.size) :=
        List.mem_filter.mpr ⟨hf, by simpa using hsz⟩
      have hsg := @groupByKey_complete AFile ℕ _ (fun x : AFile => x.size) _
        f hfpos
      simp only at hsg
      have hf_sg : f ∈ (files.filter fun x => decide (0 < x.size)).filter
          fun y => decide (y.size = f.size) :=
        List.mem_filter.mpr ⟨hfpos, by simp⟩
      have hhg := @groupByKey_complete AFile Str _
        (fun x : AFile => calculate_file_hash h x.path) _ f hf_sg
      simp only at hhg
      simp only [hcalc] at hhg
      have hval : ((files.filter fun x => decide (0 < x.size)).filter
            (fun y => decide (y.size = f.size))).filter
            (fun y => decide (calculate_file_hash h y.path = []))
          = files.filter fun x => decide (x.size = f.size)
              && decide (0 < x.size)
              && decide (calculate_file_hash h x.path = []) := hBeq
      have hlen2 : 1 < (((files.filter fun x => decide (0 < x.size)).filter
            (fun y => decide (y.size = f.size))).filter
            (fun y => decide (calculate_file_hash h y.path = []))).length := by
        rw [hval]
        omega
      have hlen1 : 1 < ((files.filter fun x => decide (0 < x.size)).filter
          fun y => decide (y.size = f.size)).length := by
        have := List.length_filter_le
          (fun y => decide (calculate_file_hash h y.path = []))
          ((files.filter fun x => decide (0 < x.size)).filter
            fun y => decide (y.size = f.size))
        omega
      have hfhg : f ∈ ((files.filter fun x => decide (0 < x.size)).filter
            (fun y => decide (y.size = f.size))).filter
          fun y => decide (calculate_file_hash h y.path = []) :=
        List.mem_filter.mpr ⟨hf_sg, by simp [hcalc]⟩
      refine ⟨⟨[], f.size,
          (((files.filter fun x => decide (0 < x.size)).filter
              (fun y => decide (y.size = f.size))).filter
            (fun y => decide (calculate_file_hash h y.path = []))).length,
          (((files.filter fun x => decide (0 < x.size)).filter
              (fun y => decide (y.size = f.size))).filter
            (fun y => decide (calculate_file_hash h y.path = []))).map
            AFile.path⟩,
        (mem_find_duplicate_files h files _).mpr
          ⟨(f.size, (files.filter fun x => decide (0 < x.size)).filter
              fun y => decide (y.size = f.size)), hsg, hlen1,
            ([], ((files.filter fun x => decide (0 < x.size)).filter
                (fun y => decide (y.size = f.size))).filter
              fun y => decide (calculate_file_hash h y.path = [])),
            hhg, hlen2, rfl⟩,
        List.mem_map.mpr ⟨f, hfhg, rfl⟩⟩

/-- C4 witness: with a readable twin and an unreadable file of the same
size, both characterizations of the amended claim evaluate as stated. -/
theorem c4_error_files_witness :
    ((⟨chars "z", chars "pz", 0⟩ : AFile).size = 0 →
      ∀ g ∈ find_duplicate_files
          (fun p => if p = chars "pz" then none else some (chars "H"))
          [⟨chars "a", chars "p1", 5⟩, ⟨chars "z", chars "pz", 0⟩],
        chars "pz" ∉ g.paths)
    ∧ (0 < (⟨chars "z", chars "pz", 0⟩ : AFile).size →
        ((∃ g ∈ find_duplicate_files
            (fun p => if p = chars "pz" then none else some (chars "H"))
            [⟨chars "a", chars "p1", 5⟩, ⟨chars "z", chars "pz", 0⟩],
          chars "pz" ∈ g.paths)
          ↔ 2 ≤ ([⟨chars "a", chars "p1", 5⟩,
              ⟨chars "z", chars "pz", 0⟩].filter fun x : AFile =>
                decide (x.size = (⟨chars "z", chars "pz", 0⟩ : AFile).size)
                && decide (0 < x.size)
                && decide (calculate_file_hash
                    (fun p => if p = chars "pz" then none
                     else some (chars "H")) x.path = [])).length)) :=
  c4_error_files (fun p => if p = chars "pz" then none else some (chars "H"))
    [⟨chars "a", chars "p1", 5⟩, ⟨chars "z", chars "pz", 0⟩]
    ⟨chars "z", chars "pz", 0⟩ (by decide) (by decide) (by decide)

/-! ## Undo (`AdvancedFileOperations.undo_last_operation`,
`_undo_batch_rename`)

A rename-back may raise; the injected `failSet` lists the recorded new
names whose rename-back raises, embedding the per-file `try/except`. -/

/-- The recorded original names of the `renamed` entries. -/
def renamedOrigs (infos : List RenameInfo) : List Str :=
  (infos.filter fun r => decide (r.status = RenameStatus.renamed)).map
    RenameInfo.original

/-- The recorded new names of the `renamed` entries. -/
def renamedNews (infos : List RenameInfo) : List Str :=
  (infos.filter fun r => decide (r.status = RenameStatus.renamed)).map
    RenameInfo.new

theorem mem_renamedNews (infos : List RenameInfo) (x : Str) :
    x ∈ renamedNews infos
      ↔ ∃ r ∈ infos, r.status = RenameStatus.renamed ∧ r.new = x := by
  unfold renamedNews
  rw [List.mem_map]
  constructor
  · rintro ⟨r, hr, rfl⟩
    obtain ⟨hr1, hr2⟩ := List.mem_filter.mp hr
    exact ⟨r, hr1, by simpa using hr2, rfl⟩
  · rintro ⟨r, hr, hst, rfl⟩
    exact ⟨r, List.mem_filter.mpr ⟨hr, by simpa using hst⟩, rfl⟩

theorem mem_renamedOrigs (infos : List RenameInfo) (x : Str) :
    x ∈ renamedOrigs infos
      ↔ ∃ r ∈ infos, r.status = RenameStatus.renamed ∧ r.original = x := by
  unfold renamedOrigs
  rw [List.mem_map]
  constructor
  · rintro ⟨r, hr, rfl⟩
    obtain ⟨hr1, hr2⟩ := List.mem_filter.mp hr
    exact ⟨r, hr1, by simpa using hr2, rfl⟩
  · rintro ⟨r, hr, hst, rfl⟩
    exact ⟨r, List.mem_filter.mpr ⟨hr, by simpa using hst⟩, rfl⟩

theorem renamed_cons_renamed (info : RenameInfo) (rest : List RenameInfo)
    (h : info.status = RenameStatus.renamed) :
    renamedOrigs (info :: rest) = info.original :: renamedOrigs rest
    ∧ renamedNews (info :: rest) = info.new :: renamedNews rest := by
  unfold renamedOrigs renamedNews
  rw [List.filter_cons, if_pos (by simpa using h)]
  exact ⟨rfl, rfl⟩

theorem renamed_cons_skip (info : RenameInfo) (rest : List RenameInfo)
    (h : info.status ≠ RenameStatus.renamed) :
    renamedOrigs (info :: rest) = renamedOrigs rest
    ∧ renamedNews (info :: rest) = renamedNews rest := by
  unfold renamedOrigs renamedNews
  rw [List.filter_cons, if_neg (by simpa using h)]
  exact ⟨rfl, rfl⟩

theorem nodup_fsRename {fs : List Str} (hnd : fs.Nodup) (old new : Str) :
    (fsRename fs old new).Nodup := by
  unfold fsRename
  rw [List.nodup_append]
  refine ⟨(hnd.erase old).erase new, List.nodup_singleton _, ?_⟩
  intro a ha hb
  rw [List.mem_singleton.mp hb] at ha
  exact absurd (((hnd.erase old).mem_erase_iff).mp ha).1 (by simp)

theorem mem_fsRename {fs : List Str} (hnd : fs.Nodup) (old nw x : Str) :
    x ∈ fsRename fs old nw ↔ x = nw ∨ (x ∈ fs ∧ x ≠ old ∧ x ≠ nw) := by
  unfold fsRename
  rw [List.mem_append, List.mem_singleton]
  constructor
  · rintro (hx | hx)
    · obtain ⟨hxnw, hx2⟩ := ((hnd.erase old).mem_erase_iff).mp hx
      obtain ⟨hxold, hx3⟩ := (hnd.mem_erase_iff).mp hx2
      exact Or.inr ⟨hx3, hxold, hxnw⟩
    · exact Or.inl hx
  · rintro (hx | ⟨hx1, hx2, hx3⟩)
    · exact Or.inr hx
    · exact Or.inl (((hnd.erase old).mem_erase_iff).mpr
        ⟨hx3, (hnd.mem_erase_iff).mpr ⟨hx2, hx1⟩⟩)

/-- `_undo_batch_rename`'s loop over the recorded files: entries with
status `renamed` whose rename-back raises add an error; otherwise, if the
recorded new name still exists it is renamed back to the original.
Returns `(undone_files, errors, fs)`. -/
def undoAux (failSet : List Str) :
    List RenameInfo → List Str → List Str × List Str × List Str
  | [], fs => ([], [], fs)
  | info :: rest, fs =>
    if info.status = RenameStatus.renamed then
      if info.new ∈ failSet then
        ((undoAux failSet rest fs).1,
         info.new :: (undoAux failSet rest fs).2.1,
         (undoAux failSet rest fs).2.2)
      else if info.new ∈ fs then
        (info.original
            :: (undoAux failSet rest (fsRename fs info.new info.original)).1,
         (undoAux failSet rest (fsRename fs info.new info.original)).2.1,
         (undoAux failSet rest (fsRename fs info.new info.original)).2.2)
      else undoAux failSet rest fs
    else undoAux failSet rest fs

/-- The result record of an undo call. -/
structure UndoRes : Type where
  success : Bool
  error : Option Str
  undone : List Str
  errors : List Str
deriving DecidableEq

/-- `AdvancedFileOperations._undo_batch_rename`: success stays `true`;
the history entry is popped only when no per-file error occurred. -/
def _undo_batch_rename (failSet : List Str) (entry : HistEntry)
    (st : RenSt) : UndoRes × RenSt :=
  (⟨true, none, (undoAux failSet entry.infos st.fs).1,
    (undoAux failSet entry.infos st.fs).2.1⟩,
   { fs := (undoAux failSet entry.infos st.fs).2.2,
     history :=
       if (undoAux failSet entry.infos st.fs).2.1 = [] then
         st.history.dropLast
       else st.history })

/-- `AdvancedFileOperations.undo_last_operation`. -/
def undo_last_operation (failSet : List Str) (st : RenSt) : UndoRes × RenSt :=
  match st.history.getLast? with
  | none => (⟨false, some (chars "没有可撤销的操作"), [], []⟩, st)
  | some entry =>
    match entry.op with
    | OpKind.cleanupEmptyDirs =>
      (⟨false, some (chars "无法撤销删除空目录操作"), [], []⟩, st)
    | OpKind.batchRename => _undo_batch_rename failSet entry st
    | OpKind.smartOrganize =>
      (⟨false, some (chars "智能整理操作的撤销功能尚未实现，建议手动恢复"), [], []⟩,
       st)

set_option maxHeartbeats 1600000 in
theorem renameAux_apply_spec (pattern : Str) :
    ∀ (files : List FileInfo) (i : ℕ) (fs : List Str),
      fs.Nodup →
      (∀ f ∈ files, f.name ∈ fs) →
      (files.map FileInfo.name).Nodup →
      (∀ a ∈ (renameAux pattern false files i fs).1,
       ∀ b ∈ (renameAux pattern false files i fs).1,
         a.status = RenameStatus.renamed → b.status = RenameStatus.renamed →
         a.original ≠ b.new) →
      ((∀ x, x ∈ (renameAux pattern false files i fs).2
          ↔ ((x ∈ fs
                ∧ x ∉ renamedOrigs (renameAux pattern false files i fs).1)
             ∨ x ∈ renamedNews (renameAux pattern false files i fs).1))
        ∧ (renameAux pattern false files i fs).2.Nodup
        ∧ (∀ x ∈ renamedNews (renameAux pattern false files i fs).1, x ∉ fs)
        ∧ (∀ x ∈ renamedOrigs (renameAux pattern false files i fs).1, x ∈ fs)
        ∧ (renamedNews (renameAux pattern false files i fs).1).Nodup
        ∧ (renamedOrigs (renameAux pattern false files i fs).1).Nodup
        ∧ (∀ x ∈ renamedOrigs (renameAux pattern false files i fs).1,
            x ∈ files.map FileInfo.name)) := by
  intro files
  induction files with
  | nil =>
    intro i fs hnd _ _ _
    refine ⟨fun x => ?_, hnd, ?_, ?_, ?_, ?_, ?_⟩ <;>
      simp [renameAux, renamedOrigs, renamedNews]
  | cons f rest ih =>
    intro i fs hnd hsrc hnmnd hHD
    have hdinj := candName_injective (_apply_rename_pattern f pattern i)
    have hdspec := resolve_rename_spec fs f.name
      (candName (_apply_rename_pattern f pattern i)) hdinj
    have hfname_fs : f.name ∈ fs := hsrc f (List.mem_cons_self _ _)
    have hpair := List.nodup_cons.mp
      (show (f.name :: rest.map FileInfo.name).Nodup from hnmnd)
    have hfname_rest : f.name ∉ rest.map FileInfo.name := hpair.1
    have hrest_nd : (rest.map FileInfo.name).Nodup := hpair.2
    by_cases hd : resolve_rename fs f.name
        (candName (_apply_rename_pattern f pattern i)) = f.name
    · -- unchanged: no filesystem effect, entry skipped by the undo loop
      have heq : renameAux pattern false (f :: rest) i fs
          = (⟨f.name, resolve_rename fs f.name
                (candName (_apply_rename_pattern f pattern i)),
              RenameStatus.unchanged⟩
                :: (renameAux pattern false rest (i + 1) fs).1,
             (renameAux pattern false rest (i + 1) fs).2) := by
        simp only [renameAux]
        rw [if_neg (by simp), if_pos hd]
      rw [heq] at hHD ⊢
      have hskip := renamed_cons_skip
        ⟨f.name, resolve_rename fs f.name
            (candName (_apply_rename_pattern f pattern i)),
          RenameStatus.unchanged⟩
        (renameAux pattern false rest (i + 1) fs).1 (by simp)
      obtain ⟨A1, A2, A3, A4, A5, A6, A7⟩ := ih (i + 1) fs hnd
        (fun g hg => hsrc g (List.mem_cons_of_mem _ hg)) hrest_nd
        (fun a ha b hb => hHD a (List.mem_cons_of_mem _ ha)
          b (List.mem_cons_of_mem _ hb))
      rw [hskip.1, hskip.2]
      refine ⟨A1, A2, A3, A4, A5, A6, ?_⟩
      intro x hx
      exact List.mem_cons_of_mem _ (A7 x hx)
    · -- renamed
      have hdnotfs : resolve_rename fs f.name
          (candName (_apply_rename_pattern f pattern i)) ∉ fs := by
        rcases hdspec with h | h
        · exact absurd h hd
        · exact h
      have heq : renameAux pattern false (f :: rest) i fs
          = (⟨f.name, resolve_rename fs f.name
                (candName (_apply_rename_pattern f pattern i)),
              RenameStatus.renamed⟩
                :: (renameAux pattern false rest (i + 1)
                    (fsRename fs f.name
                      (resolve_rename fs f.name
                        (candName (_apply_rename_pattern f pattern i))))).1,
             (renameAux pattern false rest (i + 1)
                  (fsRename fs f.name
                    (resolve_rename fs f.name
                      (candName (_apply_rename_pattern f pattern i))))).2) := by
        simp only [renameAux]
        rw [if_neg (by simp), if_neg hd]
      set d := resolve_rename fs f.name
        (candName (_apply_rename_pattern f pattern i)) with hdd
      set fsr := fsRename fs f.name d with hfsr
      set T := renameAux pattern false rest (i + 1) fsr with hT
      rw [heq] at hHD ⊢
      have hhead_mem : (⟨f.name, d, RenameStatus.renamed⟩ : RenameInfo)
          ∈ (⟨f.name, d, RenameStatus.renamed⟩ : RenameInfo) :: T.1 :=
        List.mem_cons_self _ _
      have hnd_fsr : fsr.Nodup := nodup_fsRename hnd _ _
      have hsrc' : ∀ g ∈ rest, g.name ∈ fsr := by
        intro g hg
        rw [hfsr, mem_fsRename hnd]
        refine Or.inr ⟨hsrc g (List.mem_cons_of_mem _ hg), ?_, ?_⟩
        · intro hc
          exact hfname_rest (hc ▸ List.mem_map_of_mem FileInfo.name hg)
        · intro hc
          exact hdnotfs (hc ▸ hsrc g (List.mem_cons_of_mem _ hg))
      obtain ⟨A1, A2, A3, A4, A5, A6, A7⟩ := ih (i + 1) fsr hnd_fsr hsrc'
        hrest_nd
        (fun a ha b hb => hHD a (List.mem_cons_of_mem _ ha)
          b (List.mem_cons_of_mem _ hb))
      have hcons := renamed_cons_renamed ⟨f.name, d, RenameStatus.renamed⟩
        T.1 rfl
      have hd_in_fsr : d ∈ fsr := by
        rw [hfsr, mem_fsRename hnd]
        exact Or.inl rfl
      have hrestnames_fs : ∀ x ∈ renamedOrigs T.1, x ∈ fs := by
        intro x hx
        obtain ⟨g, hg, hgx⟩ := List.mem_map.mp (A7 x hx)
        exact hgx ▸ hsrc g (List.mem_cons_of_mem _ hg)
      have hdnotorigs : d ∉ renamedOrigs T.1 :=
        fun hmem => hdnotfs (hrestnames_fs d hmem)
      have hfname_notin_news : f.name ∉ renamedNews T.1 := by
        intro hmem
        obtain ⟨r, hr, hrst, hrnew⟩ := (mem_renamedNews T.1 f.name).mp hmem
        exact hHD _ hhead_mem r (List.mem_cons_of_mem _ hr) rfl hrst
          hrnew.symm
      have hdnotnews : d ∉ renamedNews T.1 :=
        fun hmem => A3 d hmem hd_in_fsr
      rw [hcons.1, hcons.2]
      refine ⟨?_, A2, ?_, ?_, ?_, ?_, ?_⟩
      · intro x
        rw [A1 x, hfsr, mem_fsRename hnd]
        constructor
        · rintro (⟨hx1 | ⟨hx2, hx3, hx4⟩, hx5⟩ | hx6)
          · exact Or.inr (hx1 ▸ List.mem_cons_self _ _)
          · refine Or.inl ⟨hx2, ?_⟩
            intro hc
            rcases List.mem_cons.mp hc with hc | hc
            · exact hx3 hc
            · exact hx5 hc
          · exact Or.inr (List.mem_cons_of_mem _ hx6)
        · rintro (⟨hx1, hx2⟩ | hx3)
          · refine Or.inl ⟨Or.inr ⟨hx1, ?_, ?_⟩, ?_⟩
            · intro hc
              exact hx2 (hc ▸ List.mem_cons_self _ _)
            · intro hc
              exact hdnotfs (hc ▸ hx1)
            · intro hc
              exact hx2 (List.mem_cons_of_mem _ hc)
          · rcases List.mem_cons.mp hx3 with hc | hc
            · exact Or.inl ⟨Or.inl hc, hc ▸ hdnotorigs⟩
            · exact Or.inr hc
      · intro x hx
        rcases List.mem_cons.mp hx with hc | hc
        · exact hc ▸ hdnotfs
        · intro hxfs
          by_cases hxf : x = f.name
          · exact hfname_notin_news (hxf ▸ hc)
          · refine A3 x hc ?_
            rw [hfsr, mem_fsRename hnd]
            refine Or.inr ⟨hxfs, hxf, ?_⟩
            intro hc2
            exact hdnotfs (hc2 ▸ hxfs)
      · intro x hx
        rcases List.mem_cons.mp hx with hc | hc
        · exact hc ▸ hfname_fs
        · exact hrestnames_fs x hc
      · exact List.nodup_cons.mpr ⟨hdnotnews, A5⟩
      · refine List.nodup_cons.mpr ⟨?_, A6⟩
        intro hc
        exact hfname_rest (A7 _ hc)
      · intro x hx
        rcases List.mem_cons.mp hx with hc | hc
        · exact hc ▸ List.mem_map_of_mem FileInfo.name
            (List.mem_cons_self _ _)
        · exact List.mem_cons_of_mem _ (A7 x hc)

set_option maxHeartbeats 1600000 in
theorem undoAux_spec :
    ∀ (infos : List RenameInfo) (fs : List Str),
      fs.Nodup →
      (∀ r ∈ infos, r.status = RenameStatus.renamed → r.new ∈ fs) →
      (∀ r ∈ infos, r.status = RenameStatus.renamed → r.original ∉ fs) →
      (renamedNews infos).Nodup →
      (renamedOrigs infos).Nodup →
      (∀ a ∈ infos, ∀ b ∈ infos,
        a.status = RenameStatus.renamed → b.status = RenameStatus.renamed →
        a.original ≠ b.new) →
      ((undoAux [] infos fs).2.1 = []
        ∧ (undoAux [] infos fs).1 = renamedOrigs infos
        ∧ (∀ x, x ∈ (undoAux [] infos fs).2.2
            ↔ ((x ∈ fs ∧ x ∉ renamedNews infos) ∨ x ∈ renamedOrigs infos))
        ∧ (undoAux [] infos fs).2.2.Nodup) := by
  intro infos
  induction infos with
  | nil =>
    intro fs hnd _ _ _ _ _
    refine ⟨rfl, rfl, fun x => ?_, hnd⟩
    simp [undoAux, renamedOrigs, renamedNews]
  | cons info rest ih =>
    intro fs hnd hnews horigs hNnd hOnd hHD
    by_cases hst : info.status = RenameStatus.renamed
    · have hnew_fs : info.new ∈ fs := hnews info (List.mem_cons_self _ _) hst
      have horig_fs : info.original ∉ fs :=
        horigs info (List.mem_cons_self _ _) hst
      have hne : info.original ≠ info.new :=
        hHD info (List.mem_cons_self _ _) info (List.mem_cons_self _ _)
          hst hst
      have heq : undoAux [] (info :: rest) fs
          = (info.original
                :: (undoAux [] rest (fsRename fs info.new info.original)).1,
             (undoAux [] rest (fsRename fs info.new info.original)).2.1,
             (undoAux [] rest (fsRename fs info.new info.original)).2.2) := by
        simp only [undoAux]
        rw [if_pos hst, if_neg (List.not_mem_nil _), if_pos hnew_fs]
      have hcons := renamed_cons_renamed info rest hst
      have hO := hcons.1
      have hN := hcons.2
      have hOnd2 := List.nodup_cons.mp (hO ▸ hOnd)
      have hNnd2 := List.nodup_cons.mp (hN ▸ hNnd)
      have hnd_fsr : (fsRename fs info.new info.original).Nodup :=
        nodup_fsRename hnd _ _
      have hnews' : ∀ r ∈ rest, r.status = RenameStatus.renamed →
          r.new ∈ fsRename fs info.new info.original := by
        intro r hr hrst
        rw [mem_fsRename hnd]
        refine Or.inr ⟨hnews r (List.mem_cons_of_mem _ hr) hrst, ?_, ?_⟩
        · intro hc
          exact hNnd2.1
            (hc ▸ (mem_renamedNews rest r.new).mpr ⟨r, hr, hrst, rfl⟩)
        · intro hc
          exact hHD info (List.mem_cons_self _ _) r (List.mem_cons_of_mem _ hr)
            hst hrst hc.symm
      have horigs' : ∀ r ∈ rest, r.status = RenameStatus.renamed →
          r.original ∉ fsRename fs info.new info.original := by
        intro r hr hrst hmem
        rw [mem_fsRename hnd] at hmem
        rcases hmem with hc | ⟨hc, _, _⟩
        · exact hOnd2.1
            (hc ▸ (mem_renamedOrigs rest r.original).mpr ⟨r, hr, hrst, rfl⟩)
        · exact horigs r (List.mem_cons_of_mem _ hr) hrst hc
      obtain ⟨U1, U2, U3, U4⟩ := ih (fsRename fs info.new info.original)
        hnd_fsr hnews' horigs' hNnd2.2 hOnd2.2
        (fun a ha b hb => hHD a (List.mem_cons_of_mem _ ha)
          b (List.mem_cons_of_mem _ hb))
      have horig_in_fsr : info.original ∈ fsRename fs info.new info.original := by
        rw [mem_fsRename hnd]
        exact Or.inl rfl
      have horig_not_Nt : info.original ∉ renamedNews rest := by
        intro hmem
        obtain ⟨r, hr, hrst, hrnew⟩ :=
          (mem_renamedNews rest info.original).mp hmem
        exact hHD info (List.mem_cons_self _ _) r (List.mem_cons_of_mem _ hr)
          hst hrst hrnew.symm
      rw [heq, hO, hN]
      refine ⟨U1, by rw [U2], fun x => ?_, U4⟩
      rw [U3 x, mem_fsRename hnd]
      constructor
      · rintro (⟨hx1 | ⟨hx2, hx3, hx4⟩, hx5⟩ | hx6)
        · exact Or.inr (hx1 ▸ List.mem_cons_self _ _)
        · refine Or.inl ⟨hx2, ?_⟩
          intro hc
          rcases List.mem_cons.mp hc with hc | hc
          · exact hx3 hc
          · exact hx5 hc
        · exact Or.inr (List.mem_cons_of_mem _ hx6)
      · rintro (⟨hx1, hx2⟩ | hx3)
        · refine Or.inl ⟨Or.inr ⟨hx1, ?_, ?_⟩, ?_⟩
          · intro hc
            exact hx2 (hc ▸ List.mem_cons_self _ _)
          · intro hc
            exact horig_fs (hc ▸ hx1)
          · intro hc
            exact hx2 (List.mem_cons_of_mem _ hc)
        · rcases List.mem_cons.mp hx3 with hc | hc
          · exact Or.inl ⟨Or.inl hc, hc ▸ horig_not_Nt⟩
          · exact Or.inr hc
    · have heq : undoAux [] (info :: rest) fs = undoAux [] rest fs := by
        simp only [undoAux]
        rw [if_neg hst]
      have hskip := renamed_cons_skip info rest hst
      obtain ⟨U1, U2, U3, U4⟩ := ih fs hnd
        (fun r hr => hnews r (List.mem_cons_of_mem _ hr))
        (fun r hr => horigs r (List.mem_cons_of_mem _ hr))
        (hskip.2 ▸ hNnd) (hskip.1 ▸ hOnd)
        (fun a ha b hb => hHD a (List.mem_cons_of_mem _ ha)
          b (List.mem_cons_of_mem _ hb))
      rw [heq, hskip.1, hskip.2]
      exact ⟨U1, U2, U3, U4⟩

theorem undoAux_fail (failSet : List Str) :
    ∀ (infos : List RenameInfo) (fs : List Str),
      (∃ r ∈ infos, r.status = RenameStatus.renamed ∧ r.new ∈ failSet) →
      (undoAux failSet infos fs).2.1 ≠ [] := by
  intro infos
  induction infos with
  | nil =>
    intro fs h
    obtain ⟨r, hr, _⟩ := h
    exact absurd hr (List.not_mem_nil r)
  | cons info rest ih =>
    intro fs h
    by_cases hst : info.status = RenameStatus.renamed
    · by_cases hfail : info.new ∈ failSet
      · have heq : (undoAux failSet (info :: rest) fs).2.1
            = info.new :: (undoAux failSet rest fs).2.1 := by
          simp only [undoAux]
          rw [if_pos hst, if_pos hfail]
        rw [heq]
        exact List.cons_ne_nil _ _
      · obtain ⟨r, hr, hrst, hrf⟩ := h
        have hrrest : r ∈ rest := by
          rcases List.mem_cons.mp hr with rfl | hr2
          · exact absurd hrf hfail
          · exact hr2
        by_cases hmem : info.new ∈ fs
        · have heq : (undoAux failSet (info :: rest) fs).2.1
              = (undoAux failSet rest
                  (fsRename fs info.new info.original)).2.1 := by
            simp only [undoAux]
            rw [if_pos hst, if_neg hfail, if_pos hmem]
          rw [heq]
          exact ih _ ⟨r, hrrest, hrst, hrf⟩
        · have heq : (undoAux failSet (info :: rest) fs).2.1
              = (undoAux failSet rest fs).2.1 := by
            simp only [undoAux]
            rw [if_pos hst, if_neg hfail, if_neg hmem]
          rw [heq]
          exact ih _ ⟨r, hrrest, hrst, hrf⟩
    · obtain ⟨r, hr, hrst, hrf⟩ := h
      have hrrest : r ∈ rest := by
        rcases List.mem_cons.mp hr with rfl | hr2
        · exact absurd hrst hst
        · exact hr2
      have heq : (undoAux failSet (info :: rest) fs).2.1
          = (undoAux failSet rest fs).2.1 := by
        simp only [undoAux]
        rw [if_neg hst]
      rw [heq]
      exact ih _ ⟨r, hrrest, hrst, hrf⟩

set_option maxHeartbeats 1600000 in
/-- C8 (amended): undo right after a successful non-preview rename restores
every file and pops the history entry provided no renamed file's original
name equals another renamed file's recorded new name (otherwise the
rename-back pass can overwrite a not-yet-undone file); a partial failure
leaves history unchanged; undo on empty history is the fixed
nothing-to-undo failure; undo of an organize entry is a fixed failure. -/
theorem c8_undo_semantics (st0 st : RenSt) (files : List FileInfo)
    (pattern : Str) (failSet : List Str) (entry : HistEntry) :
    ((st0.fs = files.map FileInfo.name) →
     (files.map FileInfo.name).Nodup →
     (∀ a ∈ (batch_rename_files st0 files pattern false).1,
      ∀ b ∈ (batch_rename_files st0 files pattern false).1,
        a.status = RenameStatus.renamed → b.status = RenameStatus.renamed →
        a.original ≠ b.new) →
      ((undo_last_operation []
            (batch_rename_files st0 files pattern false).2).2.history
          = st0.history
        ∧ (∀ x, x ∈ (undo_last_operation []
              (batch_rename_files st0 files pattern false).2).2.fs
            ↔ x ∈ st0.fs)
        ∧ (undo_last_operation []
            (batch_rename_files st0 files pattern false).2).1.undone
          = renamedOrigs (batch_rename_files st0 files pattern false).1
        ∧ (undo_last_operation []
            (batch_rename_files st0 files pattern false).2).1.errors = []
        ∧ (undo_last_operation []
            (batch_rename_files st0 files pattern false).2).1.success = true))
    ∧ ((∃ r ∈ entry.infos, r.status = RenameStatus.renamed
          ∧ r.new ∈ failSet) →
        (_undo_batch_rename failSet entry st).2.history = st.history)
    ∧ (st.history = [] →
        undo_last_operation failSet st
          = (⟨false, some (chars "没有可撤销的操作"), [], []⟩, st))
    ∧ (st.history.getLast? = some entry →
        entry.op = OpKind.smartOrganize →
        undo_last_operation failSet st
          = (⟨false, some (chars "智能整理操作的撤销功能尚未实现，建议手动恢复"),
              [], []⟩, st)) := by
  refine ⟨?_, ?_, ?_, ?_⟩
  · intro hfs0 hnm hHD
    obtain ⟨A1, A2, A3, A4, A5, A6, A7⟩ :=
      renameAux_apply_spec pattern files 1 st0.fs
        (by rw [hfs0]; exact hnm)
        (by intro g hg; rw [hfs0]; exact List.mem_map_of_mem _ hg)
        hnm hHD
    have hOnotN : ∀ x ∈ renamedOrigs (renameAux pattern false files 1 st0.fs).1,
        x ∉ renamedNews (renameAux pattern false files 1 st0.fs).1 := by
      intro x hxo hxn
      obtain ⟨a, ha, hast, haor⟩ := (mem_renamedOrigs _ x).mp hxo
      obtain ⟨b, hb, hbst, hbnw⟩ := (mem_renamedNews _ x).mp hxn
      exact hHD a ha b hb hast hbst (haor.trans hbnw.symm)
    obtain ⟨U1, U2, U3, U4⟩ := undoAux_spec
      (renameAux pattern false files 1 st0.fs).1
      (renameAux pattern false files 1 st0.fs).2
      A2
      (by
        intro r hr hrst
        rw [A1]
        exact Or.inr ((mem_renamedNews _ _).mpr ⟨r, hr, hrst, rfl⟩))
      (by
        intro r hr hrst hmem
        rw [A1] at hmem
        rcases hmem with ⟨_, hno⟩ | hN
        · exact hno ((mem_renamedOrigs _ _).mpr ⟨r, hr, hrst, rfl⟩)
        · exact hOnotN r.original
            ((mem_renamedOrigs _ _).mpr ⟨r, hr, hrst, rfl⟩) hN)
      A5 A6 hHD
    have hhist : (batch_rename_files st0 files pattern false).2.history
        = st0.history ++ [⟨OpKind.batchRename,
            (renameAux pattern false files 1 st0.fs).1⟩] := rfl
    have hlast : (batch_rename_files st0 files pattern
        false).2.history.getLast?
        = some ⟨OpKind.batchRename,
            (renameAux pattern false files 1 st0.fs).1⟩ := by
      rw [hhist]
      exact List.getLast?_concat _
    have hred : undo_last_operation []
          (batch_rename_files st0 files pattern false).2
        = _undo_batch_rename [] ⟨OpKind.batchRename,
              (renameAux pattern false files 1 st0.fs).1⟩
            (batch_rename_files st0 files pattern false).2 := by
      unfold undo_last_operation
      rw [hlast]
    have hub : _undo_batch_rename [] ⟨OpKind.batchRename,
          (renameAux pattern false files 1 st0.fs).1⟩
          (batch_rename_files st0 files pattern false).2
        = (⟨true, none,
            (undoAux [] (renameAux pattern false files 1 st0.fs).1
              (renameAux pattern false files 1 st0.fs).2).1,
            (undoAux [] (renameAux pattern false files 1 st0.fs).1
              (renameAux pattern false files 1 st0.fs).2).2.1⟩,
           ⟨(undoAux [] (renameAux pattern false files 1 st0.fs).1
              (renameAux pattern false files 1 st0.fs).2).2.2,
            if (undoAux [] (renameAux pattern false files 1 st0.fs).1
                (renameAux pattern false files 1 st0.fs).2).2.1 = [] then
              (batch_rename_files st0 files pattern false).2.history.dropLast
            else (batch_rename_files st0 files pattern false).2.history⟩) :=
      rfl
    rw [hred, hub]
    refine ⟨?_, ?_, ?_, U1, rfl⟩
    · show (if _ = ([] : List Str) then _ else _) = st0.history
      rw [if_pos U1, hhist, List.dropLast_concat]
    · intro x
      show x ∈ (undoAux [] (renameAux pattern false files 1 st0.fs).1
          (renameAux pattern false files 1 st0.fs).2).2.2 ↔ x ∈ st0.fs
      rw [U3 x]
      constructor
      · rintro (⟨hx1, hx2⟩ | hxo)
        · rw [A1 x] at hx1
          rcases hx1 with ⟨hf, _⟩ | hN
          · exact hf
          · exact absurd hN hx2
        · exact A4 x hxo
      · intro hxfs
        by_cases hxo : x ∈ renamedOrigs (renameAux pattern false files 1 st0.fs).1
        · exact Or.inr hxo
        · refine Or.inl ⟨?_, ?_⟩
          · rw [A1 x]
            exact Or.inl ⟨hxfs, hxo⟩
          · intro hxn
            exact A3 x hxn hxfs
    · show (undoAux [] (renameAux pattern false files 1 st0.fs).1
          (renameAux pattern false files 1 st0.fs).2).1
        = renamedOrigs (batch_rename_files st0 files pattern false).1
      exact U2
  · intro hex
    have hne := undoAux_fail failSet entry.infos st.fs hex
    show (if (undoAux failSet entry.infos st.fs).2.1 = [] then
        st.history.dropLast else st.history) = st.history
    rw [if_neg hne]
  · intro hh
    unfold undo_last_operation
    rw [show st.history.getLast? = none from by rw [hh]; rfl]
  · intro hlast2 hop
    cases entry with
    | mk op infos =>
      cases hop
      unfold undo_last_operation
      rw [hlast2]

/-- C8 (counterexample): renaming files `2`, `x` with pattern `{index}`
records `2 → 1` and `x → 2`; the undo pass renames `1` back to `2`,
overwriting the not-yet-undone file `2` (old `x`), then renames it to `x`.
The undo reports success with no errors and pops the history entry, yet the
directory ends as `[x]`: file `2` is not restored. -/
theorem c8_undo_counterexample :
    ((batch_rename_files ⟨[chars "2", chars "x"], []⟩
        [⟨chars "2", 0, [], [], [], [], []⟩, ⟨chars "x", 0, [], [], [], [], []⟩]
        (chars "\x7bindex\x7d") false).1
      = [⟨chars "2", chars "1", RenameStatus.renamed⟩,
         ⟨chars "x", chars "2", RenameStatus.renamed⟩])
    ∧ (undo_last_operation [] (batch_rename_files ⟨[chars "2", chars "x"], []⟩
        [⟨chars "2", 0, [], [], [], [], []⟩, ⟨chars "x", 0, [], [], [], [], []⟩]
        (chars "\x7bindex\x7d") false).2).1.success = true
    ∧ (undo_last_operation [] (batch_rename_files ⟨[chars "2", chars "x"], []⟩
        [⟨chars "2", 0, [], [], [], [], []⟩, ⟨chars "x", 0, [], [], [], [], []⟩]
        (chars "\x7bindex\x7d") false).2).1.errors = []
    ∧ (undo_last_operation [] (batch_rename_files ⟨[chars "2", chars "x"], []⟩
        [⟨chars "2", 0, [], [], [], [], []⟩, ⟨chars "x", 0, [], [], [], [], []⟩]
        (chars "\x7bindex\x7d") false).2).2.history = []
    ∧ chars "2" ∈ (⟨[chars "2", chars "x"], []⟩ : RenSt).fs
    ∧ chars "2" ∉ (undo_last_operation []
        (batch_rename_files ⟨[chars "2", chars "x"], []⟩
        [⟨chars "2", 0, [], [], [], [], []⟩, ⟨chars "x", 0, [], [], [], [], []⟩]
        (chars "\x7bindex\x7d") false).2).2.fs :=
  ⟨by decide, by decide, by decide, by decide, by decide, by decide⟩

/-- C8 witness: restoring a single rename pops the history and restores the
listing; a failing rename-back leaves history unchanged; empty history and
organize entries give the fixed failures. -/
theorem c8_undo_semantics_witness :
    ((undo_last_operation [] (batch_rename_files ⟨[chars "a"], []⟩
        [⟨chars "a", 0, [], [], [], [], []⟩] (chars "b") false).2).2.history
      = ([] : List HistEntry))
    ∧ (chars "a" ∈ (undo_last_operation []
          (batch_rename_files ⟨[chars "a"], []⟩
          [⟨chars "a", 0, [], [], [], [], []⟩] (chars "b") false).2).2.fs
        ↔ chars "a" ∈ (⟨[chars "a"], []⟩ : RenSt).fs)
    ∧ (_undo_batch_rename [chars "q"]
        ⟨OpKind.batchRename, [⟨chars "p", chars "q", RenameStatus.renamed⟩]⟩
        ⟨[chars "q"], [⟨OpKind.batchRename,
          [⟨chars "p", chars "q", RenameStatus.renamed⟩]⟩]⟩).2.history
      = [⟨OpKind.batchRename,
          [⟨chars "p", chars "q", RenameStatus.renamed⟩]⟩]
    ∧ undo_last_operation [] ⟨[], []⟩
      = (⟨false, some (chars "没有可撤销的操作"), [], []⟩, (⟨[], []⟩ : RenSt))
    ∧ undo_last_operation [] ⟨[], [⟨OpKind.smartOrganize, []⟩]⟩
      = (⟨false, some (chars "智能整理操作的撤销功能尚未实现，建议手动恢复"), [], []⟩,
         (⟨[], [⟨OpKind.smartOrganize, []⟩]⟩ : RenSt)) := by
  refine ⟨?_, ?_, ?_, ?_, ?_⟩
  · exact ((c8_undo_semantics ⟨[chars "a"], []⟩ ⟨[], []⟩
      [⟨chars "a", 0, [], [], [], [], []⟩] (chars "b") []
      ⟨OpKind.batchRename, []⟩).1 (by decide) (by decide) (by decide)).1
  · exact (((c8_undo_semantics ⟨[chars "a"], []⟩ ⟨[], []⟩
      [⟨chars "a", 0, [], [], [], [], []⟩] (chars "b") []
      ⟨OpKind.batchRename, []⟩).1 (by decide) (by decide)
        (by decide)).2.1) (chars "a")
  · exact (c8_undo_semantics ⟨[], []⟩ ⟨[chars "q"], [⟨OpKind.batchRename,
      [⟨chars "p", chars "q", RenameStatus.renamed⟩]⟩]⟩ [] (chars "")
      [chars "q"] ⟨OpKind.batchRename,
        [⟨chars "p", chars "q", RenameStatus.renamed⟩]⟩).2.1 (by decide)
  · exact (c8_undo_semantics ⟨[], []⟩ ⟨[], []⟩ [] (chars "") []
      ⟨OpKind.batchRename, []⟩).2.2.1 rfl
  · exact (c8_undo_semantics ⟨[], []⟩ ⟨[], [⟨OpKind.smartOrganize, []⟩]⟩ []
      (chars "") [] ⟨OpKind.smartOrganize, []⟩).2.2.2 (by decide) rfl
